import Mathlib

/-!
Verification of `dbsake/core/mysql/sieve/defer.py`: deferral of secondary
indexes and foreign-key constraints in MySQL dump `CREATE TABLE` statements.

Byte strings are modelled as `List Char` (the inputs are ASCII byte text);
each Python helper (`rstrip`, `splitlines`, `replace`, the `re` patterns,
the `csv` reader) is embedded directly.
-/

set_option maxRecDepth 20000

abbrev LC := List Char

def S (s : String) : LC := s.data

/-- The six ASCII whitespace bytes stripped by Python's `bytes.strip`. -/
def isPyWs (c : Char) : Bool :=
  c = ' ' || c = '\t' || c = '\n' || c = '\r' || c = '\x0b' || c = '\x0c'

def pyRstrip (l : LC) : LC := (l.reverse.dropWhile isPyWs).reverse

def pyLstrip (l : LC) : LC := l.dropWhile isPyWs

def pyStrip (l : LC) : LC := pyLstrip (pyRstrip l)

/-- Python `bytes.rstrip(b",")`. -/
def rstripComma (l : LC) : LC := (l.reverse.dropWhile (fun c => c = ',')).reverse

/-- Python `pat in s` (substring containment). -/
def containsSub (s pat : LC) : Bool :=
  (List.range (s.length + 1)).any (fun i => pat.isPrefixOf (s.drop i))

/-- Python `s.replace(pat, rep)`: replace every non-overlapping occurrence,
scanning left to right.  The `Nat` fuel is an upper bound on the scan length
(structural recursion so that the kernel can evaluate it); `replaceAll`
supplies `s.length`, which always suffices because each step consumes at
least one character. -/
def replaceAllF (pat rep : LC) : Nat → LC → LC
  | _, [] => []
  | 0, s => s
  | fuel + 1, c :: rest =>
    if pat ≠ [] ∧ pat.isPrefixOf (c :: rest) then
      rep ++ replaceAllF pat rep fuel ((c :: rest).drop pat.length)
    else
      c :: replaceAllF pat rep fuel rest

def replaceAll (pat rep : LC) (s : LC) : LC := replaceAllF pat rep s.length s

/-- Python `bytes.splitlines(keepends=True)`: split at `\n`, `\r\n`, `\r`,
keeping the terminators.  `acc` holds the current line's characters reversed. -/
def splitKeepAux : LC → LC → List LC
  | [], acc => if acc.isEmpty then [] else [acc.reverse]
  | '\r' :: '\n' :: rest, acc => (acc.reverse ++ S ("\r\n")) :: splitKeepAux rest []
  | '\r' :: rest, acc => (acc.reverse ++ ['\r']) :: splitKeepAux rest []
  | '\n' :: rest, acc => (acc.reverse ++ ['\n']) :: splitKeepAux rest []
  | c :: rest, acc => splitKeepAux rest (c :: acc)

def splitKeep (s : LC) : List LC := splitKeepAux s []

/-- Remove one trailing line terminator, if present. -/
def dropEol (l : LC) : LC :=
  if (S ("\r\n")).isSuffixOf l then l.dropLast.dropLast
  else if ['\n'].isSuffixOf l || ['\r'].isSuffixOf l then l.dropLast
  else l

/-- Python `bytes.splitlines()` (terminators removed). -/
def splitNoKeep (s : LC) : List LC := (splitKeep s).map dropEol

def joinL : List LC → LC
  | [] => []
  | l :: ls => l ++ joinL ls

/-- Python `sep.join(xs)`. -/
def joinSep (sep : LC) : List LC → LC
  | [] => []
  | [x] => x
  | x :: xs => x ++ sep ++ joinSep sep xs

/-! ### A backtracking regular-expression engine

Mirrors CPython `re` semantics for the three patterns used by the source:
leftmost match, greedy quantifiers with backtracking, `.` excluding `\n`,
and `$` matching at the end of the input or just before a final `\n`.
Results are listed in backtracking priority order; the head is the match
Python returns. -/

def maxRun (p : Char → Bool) : LC → Nat
  | [] => 0
  | c :: rest => if p c then maxRun p rest + 1 else 0

inductive RE where
  | eps
  | chr (c : Char)
  | lit (t : LC)
  | cat (a b : RE)
  | alt (a b : RE)
  | opt (a : RE)
  | starC (p : Char → Bool)
  | plusC (p : Char → Bool)
  | grp (n : Nat) (a : RE)
  | eol

abbrev Caps := List (Nat × LC)

def reRun : RE → LC → List (Caps × LC)
  | .eps, s => [([], s)]
  | .chr c, s =>
    match s with
    | [] => []
    | x :: xs => if x = c then [([], xs)] else []
  | .lit t, s => if t.isPrefixOf s then [([], s.drop t.length)] else []
  | .cat a b, s =>
    (reRun a s).flatMap (fun pr => (reRun b pr.2).map (fun qr => (pr.1 ++ qr.1, qr.2)))
  | .alt a b, s => reRun a s ++ reRun b s
  | .opt a, s => reRun a s ++ [([], s)]
  | .starC p, s => (List.range (maxRun p s + 1)).map (fun j => ([], s.drop (maxRun p s - j)))
  | .plusC p, s => (List.range (maxRun p s)).map (fun j => ([], s.drop (maxRun p s - j)))
  | .grp n a, s =>
    (reRun a s).map (fun pr => (pr.1 ++ [(n, s.take (s.length - pr.2.length))], pr.2))
  | .eol, s => if s = [] || s = ['\n'] then [([], s)] else []

/-- Python `pattern.match(s)`: the highest-priority match anchored at the start. -/
def reMatch (re : RE) (s : LC) : Option Caps := (reRun re s).head?.map (fun pr => pr.1)

def capGet (caps : Caps) (n : Nat) : Option LC :=
  (caps.find? (fun pr => pr.1 = n)).map (fun pr => pr.2)

def isDot (c : Char) : Bool := c != '\n'

/-- `KEY_CRE`: `\s*(?:UNIQUE )?KEY (?P<name>`.+`) \((?P<columns>.+)\)(?: USING (?:BTREE|HASH))?,?$` -/
def keyCRE : RE :=
  .cat (.starC isPyWs) (.cat (.opt (.lit (S ("UNIQUE ")))) (.cat (.lit (S ("KEY ")))
    (.cat (.grp 1 (.cat (.chr '`') (.cat (.plusC isDot) (.chr '`'))))
    (.cat (.lit (S (" (")))
    (.cat (.grp 2 (.plusC isDot))
    (.cat (.chr ')')
    (.cat (.opt (.cat (.lit (S (" USING "))) (.alt (.lit (S ("BTREE"))) (.lit (S ("HASH"))))))
    (.cat (.opt (.chr ',')) .eol))))))))

/-- `CONSTRAINT_CRE`: `^\s*CONSTRAINT (?P<name>`.+`) FOREIGN KEY \((?P<columns>.+)\) REFERENCES` -/
def consCRE : RE :=
  .cat (.starC isPyWs) (.cat (.lit (S ("CONSTRAINT ")))
    (.cat (.grp 1 (.cat (.chr '`') (.cat (.plusC isDot) (.chr '`'))))
    (.cat (.lit (S (" FOREIGN KEY (")))
    (.cat (.grp 2 (.plusC isDot))
    (.lit (S (") REFERENCES")))))))

/-- `IDENT_CRE`: `CREATE TABLE .*`(?P<name>.+)` \($` -/
def identCRE : RE :=
  .cat (.lit (S ("CREATE TABLE "))) (.cat (.starC isDot)
    (.cat (.chr '`') (.cat (.grp 1 (.plusC isDot)) (.cat (.chr '`') (.cat (.lit (S (" ("))) .eol)))))

/-! ### The `csv` reader used by `parse_columns`

CPython `_csv` state machine for the dialect `quotechar='`'`,
`delimiter=','`, `doublequote=True`, `skipinitialspace=True`, non-strict,
restricted to a single record (the inputs contain no newline). -/

inductive CsvState where
  | startField
  | inField
  | inQuoted
  | quoteInQuoted

def csvQuote : Char := '`'

def csvGo : CsvState → List LC → LC → LC → List LC
  | _, fields, cur, [] => fields ++ [cur.reverse]
  | .startField, fields, cur, c :: rest =>
    if c = ' ' then csvGo .startField fields cur rest
    else if c = csvQuote then csvGo .inQuoted fields cur rest
    else if c = ',' then csvGo .startField (fields ++ [[]]) [] rest
    else csvGo .inField fields (c :: cur) rest
  | .inField, fields, cur, c :: rest =>
    if c = ',' then csvGo .startField (fields ++ [cur.reverse]) [] rest
    else csvGo .inField fields (c :: cur) rest
  | .inQuoted, fields, cur, c :: rest =>
    if c = csvQuote then csvGo .quoteInQuoted fields cur rest
    else csvGo .inQuoted fields (c :: cur) rest
  | .quoteInQuoted, fields, cur, c :: rest =>
    if c = csvQuote then csvGo .inQuoted fields (c :: cur) rest
    else if c = ',' then csvGo .startField (fields ++ [cur.reverse]) [] rest
    else csvGo .inField fields (c :: cur) rest

/-- `parse_columns`: decode a backtick-quoted comma-separated identifier list. -/
def parse_columns (v : LC) : List LC :=
  if v.isEmpty then [] else csvGo .startField [] [] v

/-! ### The data model and the five functions of `defer.py` -/

structure Entry where
  name : LC
  columns : List LC
  line : LC
deriving DecidableEq, Repr

def entryOf (re : RE) (l : LC) : Option Entry :=
  match reMatch re l with
  | none => none
  | some caps =>
    match capGet caps 1, capGet caps 2 with
    | some g1, some g2 => some ⟨(parse_columns g1).headD [], parse_columns g2, l⟩
    | _, _ => none

def extract_indexes (ddl : LC) : List Entry :=
  (splitKeep ddl).filterMap (fun l => entryOf keyCRE l)

def extract_constraints (ddl : LC) : List Entry :=
  (splitKeep ddl).filterMap (fun l => entryOf consCRE l)

/-- A line is an index line exactly when `extract_indexes` would extract it. -/
def isKeyLine (l : LC) : Bool := (entryOf keyCRE l).isSome

/-- A line is a constraint line exactly when `extract_constraints` would
extract it. -/
def isConsLine (l : LC) : Bool := (entryOf consCRE l).isSome

def ctLit : LC := S ("CREATE TABLE")

/-- `extract_create_table`'s loop over the section lines. -/
def ectGo : List LC → List LC → List LC
  | [], acc => acc
  | l :: ls, acc =>
    if ctLit.isPrefixOf l then ectGo ls (acc ++ [l])
    else if acc.isEmpty then ectGo ls acc
    else if [';'].isSuffixOf (pyRstrip l) then acc ++ [l]
    else ectGo ls (acc ++ [l])

def extract_create_table (ls : List LC) : LC := joinL (ectGo ls [])

/-- `extract_table_name`; `none` models the raised `ValueError`. -/
def extract_table_name (ddl : LC) : Option LC :=
  (splitNoKeep ddl).findSome? (fun l => (reMatch identCRE l).bind (fun caps => capGet caps 1))

def alterTemplate (table : LC) (lines : List LC) : List LC :=
  [S ("--"), S ("-- InnoDB Fast Index Creation (generated by dbsake)"), S ("--"), [],
   S ("ALTER TABLE `") ++ table ++ S ("`"),
   S ("  ADD ") ++ joinSep (S ("\n  ADD ")) lines]

/-- `format_alter_table`; `none` models the `ValueError` from
`extract_table_name`. -/
def format_alter_table (ddl : LC) (idxs : List Entry) : Option LC :=
  match extract_table_name ddl with
  | none => none
  | some table =>
    let lines := idxs.map (fun e => pyStrip e.line)
    if lines.isEmpty then some []
    else some (rstripComma (joinSep ['\n'] (alterTemplate table lines)) ++ [';'])

/-- `result[-1] = result[-1].rstrip().rstrip(b",") + b'\n'`. -/
def fixL (l : LC) : LC := rstripComma (pyRstrip l) ++ ['\n']

def startsWithPar (l : LC) : Bool := [')'].isPrefixOf l

/-- `result[-1] = ...` applies only when `result` is nonempty. -/
def fctFix : List LC → List LC
  | [] => []
  | a :: rest2 => fixL a :: rest2

/-- One step of `format_create_table`'s loop: fix the previous kept line when
the current line starts with `)`, then keep the line unless deferred. -/
def fctStep (deferred : List LC) (l : LC) (acc : List LC) : List LC :=
  if l ∈ deferred then (if startsWithPar l then fctFix acc else acc)
  else l :: (if startsWithPar l then fctFix acc else acc)

/-- `format_create_table`'s loop; `acc` holds kept lines reversed. -/
def fctAux (deferred : List LC) : List LC → List LC → List LC
  | [], acc => acc.reverse
  | l :: ls, acc => fctAux deferred ls (fctStep deferred l acc)

def fctLines (deferred : List LC) (ls : List LC) : List LC := fctAux deferred ls []

def format_create_table (ddl : LC) (idxs : List Entry) : LC :=
  joinL (fctLines (idxs.map (fun e => e.line)) (splitKeep ddl))

/-- Stable insertion (equal keys keep the earlier element first), so that
`sortByLen` agrees with Python's stable `sorted(key=len(columns))`. -/
def insLen (e : Entry) : List Entry → List Entry
  | [] => [e]
  | f :: fs => if e.columns.length ≤ f.columns.length then e :: f :: fs else f :: insLen e fs

def sortByLen : List Entry → List Entry
  | [] => []
  | e :: es => insLen e (sortByLen es)

/-- `index.columns[0:len(constraint.columns)] == constraint.columns`. -/
def prefixMatches (ccols : List LC) (e : Entry) : Bool := e.columns.take ccols.length == ccols

/-- The inner loop of the preservation resolver: first match over the
length-sorted indexes. -/
def findPrefIdx (ccols : List LC) (idxs : List Entry) : Option Entry :=
  (sortByLen idxs).find? (prefixMatches ccols)

/-- The `preserved_indexes` set, as a deduplicated list in insertion order. -/
def buildPreserved (cons idxs : List Entry) : List (Entry × LC) :=
  cons.foldl (fun acc c =>
    match findPrefIdx c.columns idxs with
    | some e => if (e, c.name) ∈ acc then acc else acc ++ [(e, c.name)]
    | none => acc) []

/-- Python `list.remove`: drop the first occurrence, `none` = `ValueError`. -/
def removeFirst (x : Entry) : List Entry → Option (List Entry)
  | [] => none
  | y :: ys => if y = x then some ys else (removeFirst x ys).map (fun r => y :: r)

inductive PyErr where
  | removeValueError
  | tableNameValueError
deriving DecidableEq, Repr

/-- The `warn` + `indexes.remove` loop over the preserved set; returns the
warnings emitted (index name, constraint name) and the surviving indexes. -/
def removeLoop : List Entry → List (Entry × LC) → List (LC × LC) × Except PyErr (List Entry)
  | idxs, [] => ([], .ok idxs)
  | idxs, (e, cn) :: rest =>
    match removeFirst e idxs with
    | none => ([(e.name, cn)], .error .removeValueError)
    | some idxs2 =>
      let pr := removeLoop idxs2 rest
      ((e.name, cn) :: pr.1, pr.2)

structure DumpSection where
  database : LC
  table : LC
  lines : List LC
deriving DecidableEq, Repr

structure SplitOut where
  result : Except PyErr LC
  lines : List LC
  warnings : List (LC × LC)
deriving Repr

/-- The tail of `split_indexes`: patch the CREATE TABLE, substitute it back
into the section text, reset the section lines, then format the ALTER TABLE
(whose table-name extraction may fail — after the mutation). -/
def splitFinish (table_ddl : LC) (ls : List LC) (idxs2 : List Entry)
    (warns : List (LC × LC)) : SplitOut :=
  let patched := format_create_table table_ddl idxs2
  let newLines := splitKeep (replaceAll table_ddl patched (joinL ls))
  match format_alter_table table_ddl idxs2 with
  | none => ⟨.error .tableNameValueError, newLines, warns⟩
  | some alt => ⟨.ok alt, newLines, warns⟩

/-- `split_indexes(section, defer_constraints)`. -/
def split_indexes (sec : DumpSection) (defer_constraints : Bool) : SplitOut :=
  let ls := sec.lines
  let table_ddl := extract_create_table ls
  if containsSub table_ddl (S ("ENGINE=InnoDB")) then
    let idxs := extract_indexes table_ddl
    let cons := extract_constraints table_ddl
    if defer_constraints then
      splitFinish table_ddl ls (idxs ++ cons) []
    else
      let rl := removeLoop idxs (buildPreserved cons idxs)
      match rl.2 with
      | .error e => ⟨.error e, ls, rl.1⟩
      | .ok idxs2 => splitFinish table_ddl ls idxs2 rl.1
  else
    ⟨.ok [], ls, []⟩

/-! ### Claim C1: unmatched constraints and deferral (spec end-to-end example) -/

def exC1sec : DumpSection :=
  ⟨S ("d"), S ("t"),
   [S ("CREATE TABLE `t` (\n"), S ("  `a` INT,\n"), S ("  `b` INT,\n"),
    S ("  KEY `idx_a` (`a`),\n"),
    S ("  CONSTRAINT `fk_b` FOREIGN KEY (`b`) REFERENCES `other` (`id`)\n"),
    S (") ENGINE=InnoDB;\n")]⟩

def exC1alter : LC :=
  S ("--\n-- InnoDB Fast Index Creation (generated by dbsake)\n--\n\nALTER TABLE `t`\n  ADD KEY `idx_a` (`a`);")

/-- C1 is false on the code: in the spec's own end-to-end example (constraint
`fk_b` on `(b)` with no prefix-matching index, `defer_constraints = false`),
the constraint is NOT deferred — its clause line is still present in the
rewritten section, and the returned ALTER TABLE does not mention `fk_b` at
all (it only adds `idx_a`). -/
theorem c1_counterexample :
    (split_indexes exC1sec false).result = Except.ok exC1alter ∧
    S ("  CONSTRAINT `fk_b` FOREIGN KEY (`b`) REFERENCES `other` (`id`)\n")
      ∈ (split_indexes exC1sec false).lines ∧
    containsSub exC1alter (S ("fk_b")) = false := by
  refine ⟨rfl, ?_, ?_⟩ <;> decide

/-! ### Claim C2: the preserved index is not excluded until after the loop -/

def exC2sec : DumpSection :=
  ⟨S ("d"), S ("t"),
   [S ("CREATE TABLE `t` (\n"), S ("  `a` INT,\n"), S ("  KEY `k` (`a`),\n"),
    S ("  CONSTRAINT `c1` FOREIGN KEY (`a`) REFERENCES `o` (`x`),\n"),
    S ("  CONSTRAINT `c2` FOREIGN KEY (`a`) REFERENCES `o` (`y`)\n"),
    S (") ENGINE=InnoDB;\n")]⟩

/-- C2 names a bug: the matching index is not removed from the search set
inside the constraint loop, so a second constraint sharing the same prefix
matches the same index again and records a second PreservedIndex for it;
the removal pass afterwards then tries to `list.remove` that index twice and
the second removal raises `ValueError`.  Here both `c1` and `c2` (both on
`(a)`) match the single index `k`, the resolver records `k` once per
constraint (two warnings), and the call aborts with the `remove` error. -/
theorem c2_bug_eval :
    (split_indexes exC2sec false).result = Except.error PyErr.removeValueError ∧
    (split_indexes exC2sec false).warnings =
      [(S ("k"), S ("c1")), (S ("k"), S ("c2"))] := by
  exact ⟨rfl, rfl⟩

/-! ### Claim C3: the fatal table-name path mutates the section first -/

def exC3sec : DumpSection :=
  ⟨S ("d"), S ("t"),
   [S ("CREATE TABLE t (\n"), S ("  KEY `k` (`a`)\n"), S (") ENGINE=InnoDB;\n")]⟩

/-- C3 is false on the code: when table-name extraction fails inside
`format_alter_table`, the section's line sequence has already been replaced
by the patched rewrite (the KEY line is gone), so on the fatal path the
section's lines are NOT what they were on entry. -/
theorem c3_counterexample :
    (split_indexes exC3sec false).result = Except.error PyErr.tableNameValueError ∧
    (split_indexes exC3sec false).lines ≠ exC3sec.lines := by
  exact ⟨rfl, by decide⟩

/-- C3 (amended): on the fatal table-name path the call does raise to the
caller, but only after the section's line-sequence field has been overwritten
with the patched CREATE TABLE text; the section is left in the rewritten
state, not the entry state. -/
theorem c3_amended_thm :
    split_indexes exC3sec false =
      ⟨Except.error PyErr.tableNameValueError,
       [S ("CREATE TABLE t (\n"), S (") ENGINE=InnoDB;\n")], []⟩ := by
  rfl

/-! ### Claim C4: the prefix test and the ascending-length search -/

def exC4sec : DumpSection :=
  ⟨S ("d"), S ("t"),
   [S ("CREATE TABLE `t` (\n"), S ("  `a` INT,\n"), S ("  KEY `k1` (`a`),\n"),
    S ("  KEY `k2` (`a`,`b`,`c`),\n"),
    S ("  CONSTRAINT `fk` FOREIGN KEY (`a`, `b`) REFERENCES `o` (`x`,`y`)\n"),
    S (") ENGINE=InnoDB;\n")]⟩

/-- C4: an index with fewer columns than the constraint can never pass the
slice-equality test `index.columns[0:len(constraint.columns)] ==
constraint.columns`; and in the boundary scenario — constraint on `(a, b)`
with indexes on `(a)` and `(a, b, c)` — the resolver skips the length-1
index `k1` (deferring it) and preserves `k2`, whose tuple has `(a, b)` as a
prefix, withholding it from the ALTER TABLE. -/
theorem c4_thm :
    (∀ (e : Entry) (ccols : List LC), e.columns.length < ccols.length →
      prefixMatches ccols e = false) ∧
    split_indexes exC4sec false =
      ⟨Except.ok (S ("--\n-- InnoDB Fast Index Creation (generated by dbsake)\n--\n\nALTER TABLE `t`\n  ADD KEY `k1` (`a`);")),
       [S ("CREATE TABLE `t` (\n"), S ("  `a` INT,\n"), S ("  KEY `k2` (`a`,`b`,`c`),\n"),
        S ("  CONSTRAINT `fk` FOREIGN KEY (`a`, `b`) REFERENCES `o` (`x`,`y`)\n"),
        S (") ENGINE=InnoDB;\n")],
       [(S ("k2"), S ("fk"))]⟩ := by
  constructor
  · intro e ccols h
    rw [prefixMatches, beq_eq_false_iff_ne]
    intro heq
    have hlen := congrArg List.length heq
    simp only [List.length_take] at hlen
    omega
  · rfl

/-- Witness for C4: the length-hypothesis instance used by the boundary case
(index on `(a)` against a constraint on `(a, b)`). -/
theorem c4_witness :
    prefixMatches [S ("a"), S ("b")] ⟨S ("k1"), [S ("a")], S ("L1")⟩ = false :=
  c4_thm.1 ⟨S ("k1"), [S ("a")], S ("L1")⟩ [S ("a"), S ("b")] (by decide)

/-! ### Claim C7: non-InnoDB sections are left untouched -/

/-- C7: whenever the extracted DDL does not contain `ENGINE=InnoDB`,
`split_indexes` returns empty bytes, emits no warnings, and the section's
lines are exactly the entry lines. -/
theorem c7_thm (sec : DumpSection) (d : Bool)
    (h : containsSub (extract_create_table sec.lines) (S ("ENGINE=InnoDB")) = false) :
    split_indexes sec d = ⟨Except.ok [], sec.lines, []⟩ := by
  simp [split_indexes, h]

def exC7sec : DumpSection :=
  ⟨S ("d"), S ("t"), [S ("CREATE TABLE `t` (\n"), S ("  `a` INT\n"), S (") ENGINE=MyISAM;\n")]⟩

/-- Witness for C7 at a concrete MyISAM section. -/
theorem c7_witness : split_indexes exC7sec false = ⟨Except.ok [], exC7sec.lines, []⟩ :=
  c7_thm exC7sec false (by decide)

/-! ### Claim C9: the exact extent of `extract_create_table` -/

/-- C9 is false on the code in two ways.  First, when a `CREATE TABLE` line
is found but no terminating `;` line follows, the function returns the run
to the end of the section, not empty bytes.  Second, a line that itself
starts with `CREATE TABLE` is appended without the terminator check, so a
`;`-terminated `CREATE TABLE` line does not stop the scan. -/
theorem c9_counterexample :
    extract_create_table [S ("CREATE TABLE `t` (")] = S ("CREATE TABLE `t` (") ∧
    S ("CREATE TABLE `t` (") ≠ [] ∧
    extract_create_table [S ("CREATE TABLE a (\n"), S ("CREATE TABLE b;\n"), S ("c\n")] =
      S ("CREATE TABLE a (\nCREATE TABLE b;\nc\n") ∧
    S ("CREATE TABLE a (\nCREATE TABLE b;\nc\n") ≠ S ("CREATE TABLE a (\nCREATE TABLE b;\n") := by
  exact ⟨rfl, by decide, rfl, by decide⟩

/-- Collect elements up to and including the first one satisfying `p`
(all of them when none does). -/
def takeThrough (p : LC → Bool) : List LC → List LC
  | [] => []
  | l :: ls => if p l then [l] else l :: takeThrough p ls

/-- The terminating condition of the amended C9: a line that does not itself
start with `CREATE TABLE` and whose right-stripped content ends with `;`. -/
def ectStop (l : LC) : Bool := !ctLit.isPrefixOf l && [';'].isSuffixOf (pyRstrip l)

/-- The amended C9 description of the extracted line run: drop everything
before the first `CREATE TABLE` line, then take lines through the first
stopping line (to the end if none stops). -/
def ectSpecLines (ls : List LC) : List LC :=
  match ls.dropWhile (fun l => !ctLit.isPrefixOf l) with
  | [] => []
  | f :: rest => f :: takeThrough ectStop rest

theorem ectGo_acc (ls : List LC) : ∀ acc : List LC, acc ≠ [] →
    ectGo ls acc = acc ++ takeThrough ectStop ls := by
  induction ls with
  | nil => intro acc _; simp [ectGo, takeThrough]
  | cons l ls ih =>
    intro acc hacc
    by_cases hct : ctLit.isPrefixOf l
    · rw [ectGo, if_pos hct, ih (acc ++ [l]) (by simp)]
      simp [takeThrough, ectStop, hct]
    · rw [ectGo, if_neg hct, if_neg (by simp [hacc])]
      by_cases hsemi : [';'].isSuffixOf (pyRstrip l)
      · rw [if_pos hsemi]
        simp [takeThrough, ectStop, hct, hsemi]
      · rw [if_neg hsemi, ih (acc ++ [l]) (by simp)]
        simp [takeThrough, ectStop, hct, hsemi]

theorem ectGo_nil_eq : ∀ ls : List LC, ectGo ls [] = ectSpecLines ls := by
  intro ls
  induction ls with
  | nil => rfl
  | cons l ls ih =>
    by_cases hct : ctLit.isPrefixOf l
    · rw [ectGo, if_pos hct, List.nil_append, ectGo_acc ls [l] (by simp), ectSpecLines]
      rw [List.dropWhile_cons_of_neg (by simp [hct])]
      simp
    · rw [ectGo, if_neg hct, if_pos (by simp), ih, ectSpecLines, ectSpecLines,
        List.dropWhile_cons_of_pos (by simp [hct])]

/-- C9 (amended): `extract_create_table` returns the concatenation of the
lines from the first line starting with `CREATE TABLE` through the first
subsequent line (inclusive) that does not itself start with `CREATE TABLE`
and whose right-stripped content ends with `;`; if no such stopping line
follows, the run extends to the end of the section.  The result is empty
exactly when no line starts with `CREATE TABLE`. -/
theorem c9_amended_thm (ls : List LC) :
    extract_create_table ls = joinL (ectSpecLines ls) ∧
    (extract_create_table ls = [] ↔ ∀ l ∈ ls, ctLit.isPrefixOf l = false) := by
  constructor
  · rw [extract_create_table, ectGo_nil_eq]
  · induction ls with
    | nil => simp [extract_create_table, ectGo, joinL]
    | cons l ls ih =>
      by_cases hct : ctLit.isPrefixOf l
      · have hne : extract_create_table (l :: ls) ≠ [] := by
          rw [extract_create_table, ectGo, if_pos hct, List.nil_append,
            ectGo_acc ls [l] (by simp)]
          have hl : l ≠ [] := by
            intro hl
            rw [hl] at hct
            simp [ctLit, S] at hct
          cases l with
          | nil => exact absurd rfl hl
          | cons c cs => simp [joinL]
        constructor
        · intro h; exact absurd h hne
        · intro h
          have := h l (by simp)
          rw [hct] at this
          cases this
      · have heq : extract_create_table (l :: ls) = extract_create_table ls := by
          rw [extract_create_table, extract_create_table, ectGo, if_neg hct, if_pos (by simp)]
        rw [heq]
        constructor
        · intro h c hc
          rcases List.mem_cons.mp hc with h1 | h1
          · rw [h1]; simp [hct]
          · exact (ih.mp h) c h1
        · intro h
          exact ih.mpr (fun c hc => h c (List.mem_cons_of_mem l hc))

/-- Witness for C9 (amended) at a concrete section with no terminator line. -/
theorem c9_witness :
    extract_create_table [S ("x\n"), S ("CREATE TABLE `t` (\n"), S ("  `a` INT\n")] =
      joinL (ectSpecLines [S ("x\n"), S ("CREATE TABLE `t` (\n"), S ("  `a` INT\n")]) :=
  (c9_amended_thm [S ("x\n"), S ("CREATE TABLE `t` (\n"), S ("  `a` INT\n")]).1

/-! ### Claim C10: stable ascending-length visiting order -/

theorem mem_insLen {x e : Entry} {l : List Entry} : x ∈ insLen e l ↔ x = e ∨ x ∈ l := by
  induction l with
  | nil => simp [insLen]
  | cons f fs ih =>
    rw [insLen]
    by_cases hle : e.columns.length ≤ f.columns.length
    · rw [if_pos hle]
      simp [or_comm, or_left_comm]
    · rw [if_neg hle]
      simp [ih, or_comm, or_left_comm]

theorem insLen_pairwise (e : Entry) (l : List Entry)
    (h : l.Pairwise (fun a b => a.columns.length ≤ b.columns.length)) :
    (insLen e l).Pairwise (fun a b => a.columns.length ≤ b.columns.length) := by
  induction l with
  | nil => simp [insLen]
  | cons f fs ih =>
    rw [insLen]
    have hf := List.pairwise_cons.mp h
    by_cases hle : e.columns.length ≤ f.columns.length
    · rw [if_pos hle]
      refine List.pairwise_cons.mpr ⟨?_, h⟩
      intro x hx
      rcases List.mem_cons.mp hx with h1 | h1
      · rw [h1]; exact hle
      · exact le_trans hle (hf.1 x h1)
    · rw [if_neg hle]
      refine List.pairwise_cons.mpr ⟨?_, ih hf.2⟩
      intro x hx
      rcases mem_insLen.mp hx with h1 | h1
      · rw [h1]; omega
      · exact hf.1 x h1

theorem filter_insLen (k : Nat) (e : Entry) (l : List Entry) :
    (insLen e l).filter (fun f => f.columns.length == k) =
      if e.columns.length = k then e :: l.filter (fun f => f.columns.length == k)
      else l.filter (fun f => f.columns.length == k) := by
  induction l with
  | nil => by_cases h : e.columns.length = k <;> simp [insLen, List.filter_cons, h]
  | cons f fs ih =>
    rw [insLen]
    by_cases hle : e.columns.length ≤ f.columns.length
    · rw [if_pos hle]
      by_cases he : e.columns.length = k <;> simp [List.filter_cons, he]
    · rw [if_neg hle]
      by_cases hf : f.columns.length = k
      · have he : ¬ e.columns.length = k := by omega
        simp [List.filter_cons, hf, he, ih]
      · by_cases he : e.columns.length = k <;> simp [List.filter_cons, hf, he, ih]

def exC10sec : DumpSection :=
  ⟨S ("d"), S ("t"),
   [S ("CREATE TABLE `t` (\n"), S ("  KEY `k0` (`b`),\n"), S ("  KEY `k1` (`a`,`b`),\n"),
    S ("  KEY `k2` (`a`,`c`),\n"),
    S ("  CONSTRAINT `fk` FOREIGN KEY (`a`) REFERENCES `o` (`x`)\n"),
    S (") ENGINE=InnoDB;\n")]⟩

/-- C10: the resolver's ordering is sorted ascending by column-list length
and stable — the equal-length entries of the sorted list are exactly the
equal-length entries of the original extraction order.  Concretely, for a
constraint on `(a)` with indexes `k0 (b)`, `k1 (a,b)`, `k2 (a,c)`, the
non-matching shorter index `k0` is skipped and the earliest-declared
matching index of the smallest matching length, `k1`, is preserved and
withheld from deferral, while `k0` and `k2` are deferred. -/
theorem c10_thm :
    (∀ idxs : List Entry,
      (sortByLen idxs).Pairwise (fun a b => a.columns.length ≤ b.columns.length)) ∧
    (∀ (k : Nat) (idxs : List Entry),
      (sortByLen idxs).filter (fun e => e.columns.length == k) =
        idxs.filter (fun e => e.columns.length == k)) ∧
    split_indexes exC10sec false =
      ⟨Except.ok (S ("--\n-- InnoDB Fast Index Creation (generated by dbsake)\n--\n\nALTER TABLE `t`\n  ADD KEY `k0` (`b`),\n  ADD KEY `k2` (`a`,`c`);")),
       [S ("CREATE TABLE `t` (\n"), S ("  KEY `k1` (`a`,`b`),\n"),
        S ("  CONSTRAINT `fk` FOREIGN KEY (`a`) REFERENCES `o` (`x`)\n"),
        S (") ENGINE=InnoDB;\n")],
       [(S ("k1"), S ("fk"))]⟩ := by
  refine ⟨?_, ?_, rfl⟩
  · intro idxs
    induction idxs with
    | nil => simp [sortByLen]
    | cons e es ih => exact insLen_pairwise e (sortByLen es) ih
  · intro k idxs
    induction idxs with
    | nil => simp [sortByLen]
    | cons e es ih =>
      rw [sortByLen, filter_insLen, List.filter_cons, ih]
      by_cases he : e.columns.length = k
      · rw [if_pos he]
        simp [he]
      · rw [if_neg he]
        simp [he]

/-! ### Infrastructure: right strips, line structure, `splitKeep` -/

theorem dropWhileR_cons_of_neg {p : Char → Bool} {c : Char} (cs : LC) (h : p c = false) :
    ((c :: cs).reverse.dropWhile p).reverse = c :: (cs.reverse.dropWhile p).reverse := by
  rw [List.reverse_cons, List.dropWhile_append]
  by_cases he : (cs.reverse.dropWhile p).isEmpty
  · rw [if_pos he]
    rw [List.isEmpty_iff] at he
    simp [List.dropWhile, h, he]
  · rw [if_neg he]
    simp

theorem dropWhileR_pref (p : Char → Bool) (l : LC) : (l.reverse.dropWhile p).reverse <+: l := by
  have h1 : l.reverse.dropWhile p <:+ l.reverse := List.dropWhile_suffix p
  simpa using List.reverse_prefix.mpr h1

theorem pyRstrip_pref (l : LC) : pyRstrip l <+: l := dropWhileR_pref _ l

theorem rstripComma_pref (l : LC) : rstripComma l <+: l := dropWhileR_pref _ l

theorem dropWhile_head_neg {p : Char → Bool} {c : Char} {t : LC} :
    ∀ {w : LC}, w.dropWhile p = c :: t → p c = false := by
  intro w
  induction w with
  | nil => intro h; cases h
  | cons a w ih =>
    intro h
    rw [List.dropWhile_cons] at h
    by_cases ha : p a
    · rw [if_pos ha] at h; exact ih h
    · rw [if_neg ha] at h
      cases h
      simpa using ha

theorem dropWhileR_append_all {p : Char → Bool} (x t : LC) (h : ∀ c ∈ t, p c = true) :
    ((x ++ t).reverse.dropWhile p).reverse = (x.reverse.dropWhile p).reverse := by
  rw [List.reverse_append, List.dropWhile_append]
  by_cases he : (t.reverse.dropWhile p).isEmpty
  · rw [if_pos he]
  · exfalso
    rw [List.isEmpty_iff] at he
    rw [List.dropWhile_eq_nil_iff] at he
    · exact he (fun c hc => h c (List.mem_reverse.mp hc))

theorem pyRstrip_append_ws (x t : LC) (h : ∀ c ∈ t, isPyWs c = true) :
    pyRstrip (x ++ t) = pyRstrip x :=
  dropWhileR_append_all x t h

/-- Pushing `rstrip(b",")` across an append whose left part does not end in a
comma. -/
theorem rstripComma_append (x y : LC) (hx : x.getLast? ≠ some ',') :
    rstripComma (x ++ y) = x ++ rstripComma y := by
  rw [rstripComma, rstripComma, List.reverse_append, List.dropWhile_append]
  by_cases he : (y.reverse.dropWhile (fun c => c = ',')).isEmpty
  · rw [if_pos he]
    rw [List.isEmpty_iff] at he
    rw [he, List.reverse_nil, List.append_nil]
    cases hx2 : x.reverse with
    | nil =>
      have : x = [] := by simpa using congrArg List.reverse hx2
      simp [this]
    | cons c cs =>
      have hcx : x.getLast? = some c := by
        rw [← List.head?_reverse, hx2]
        rfl
      have hc : ¬ c = ',' := by
        intro hcc
        rw [hcc] at hcx
        exact hx hcx
      rw [List.dropWhile_cons_of_neg (by simpa using hc), ← hx2, List.reverse_reverse]
  · rw [if_neg he]
    simp

theorem rstripComma_no_comma_end (l : LC) : [','].isSuffixOf (rstripComma l) = false := by
  rw [List.isSuffixOf, rstripComma, List.reverse_reverse]
  cases hd : l.reverse.dropWhile (fun c => c = ',') with
  | nil => rfl
  | cons c cs =>
    have hne := dropWhile_head_neg hd
    simp only [List.reverse_singleton, List.isPrefixOf, Bool.and_eq_false_iff]
    left
    rw [beq_eq_false_iff_ne]
    intro h
    rw [← h] at hne
    simp at hne

theorem splitKeepAux_other (c : Char) (t acc : LC) (h1 : c ≠ '\r') (h2 : c ≠ '\n') :
    splitKeepAux (c :: t) acc = splitKeepAux t (c :: acc) := by
  rw [splitKeepAux.eq_def]
  split <;> simp_all

theorem splitKeepAux_rn (rest : LC) (acc : LC) :
    splitKeepAux ('\r' :: '\n' :: rest) acc = (acc.reverse ++ S ("\r\n")) :: splitKeepAux rest [] := rfl

theorem splitKeepAux_n (rest : LC) (acc : LC) :
    splitKeepAux ('\n' :: rest) acc = (acc.reverse ++ ['\n']) :: splitKeepAux rest [] := rfl

theorem splitKeepAux_r (rest : LC) (acc : LC) (h : ∀ r2, rest ≠ '\n' :: r2) :
    splitKeepAux ('\r' :: rest) acc = (acc.reverse ++ ['\r']) :: splitKeepAux rest [] := by
  cases rest with
  | nil => rfl
  | cons d t =>
    rw [splitKeepAux.eq_def]
    split <;> simp_all [eq_comm]

/-- Scanning a terminator-free chunk just accumulates it. -/
theorem splitKeepAux_push (w : LC) (hw : ∀ c ∈ w, c ≠ '\n' ∧ c ≠ '\r') :
    ∀ t acc : LC, splitKeepAux (w ++ t) acc = splitKeepAux t (w.reverse ++ acc) := by
  induction w with
  | nil => intro t acc; simp
  | cons c w ih =>
    intro t acc
    have hc := hw c (by simp)
    rw [List.cons_append, splitKeepAux_other c (w ++ t) acc hc.2 hc.1]
    rw [ih (fun d hd => hw d (by simp [hd])) t (c :: acc)]
    simp

theorem splitKeep_line (w : LC) (hw : ∀ c ∈ w, c ≠ '\n' ∧ c ≠ '\r') (rest : LC) :
    splitKeep (w ++ '\n' :: rest) = (w ++ ['\n']) :: splitKeep rest := by
  rw [splitKeep, splitKeepAux_push w hw ('\n' :: rest) [], splitKeepAux_n, splitKeep]
  simp

theorem splitKeep_last (w : LC) (hw : ∀ c ∈ w, c ≠ '\n' ∧ c ≠ '\r') :
    splitKeep w = if w.isEmpty then [] else [w] := by
  rw [splitKeep, show w = w ++ [] by simp, splitKeepAux_push w hw [] []]
  rw [splitKeepAux]
  simp

theorem splitKeepAux_join : ∀ s acc : LC, joinL (splitKeepAux s acc) = acc.reverse ++ s := by
  intro s acc
  induction s, acc using splitKeepAux.induct with
  | case1 acc hacc =>
    rw [List.isEmpty_iff] at hacc
    simp [splitKeepAux, hacc, joinL]
  | case2 acc hacc =>
    rw [splitKeepAux]
    rw [if_neg hacc]
    simp [joinL]
  | case3 rest acc ih =>
    rw [splitKeepAux_rn, joinL, ih]
    simp [S]
  | case4 rest acc hg ih =>
    rw [splitKeepAux_r rest acc (fun r2 hr => hg r2 hr), joinL, ih]
    simp
  | case5 rest acc ih =>
    rw [splitKeepAux_n, joinL, ih]
    simp
  | case6 c rest acc hg h1 h2 ih =>
    rw [splitKeepAux_other c rest acc h1 h2, ih]
    simp

theorem joinL_splitKeep (s : LC) : joinL (splitKeep s) = s := by
  rw [splitKeep, splitKeepAux_join s []]
  rfl

/-- Every line produced by `splitKeep` is a terminator-free core followed by
one of the four terminators. -/
def lineShape (l : LC) : Prop :=
  ∃ core term, l = core ++ term ∧ (∀ c ∈ core, c ≠ '\n' ∧ c ≠ '\r') ∧
    (term = [] ∨ term = ['\n'] ∨ term = ['\r'] ∨ term = ['\r', '\n'])

theorem splitKeepAux_shape : ∀ s acc : LC, (∀ c ∈ acc, c ≠ '\n' ∧ c ≠ '\r') →
    ∀ l ∈ splitKeepAux s acc, lineShape l := by
  intro s acc
  induction s, acc using splitKeepAux.induct with
  | case1 acc hacc =>
    intro _ l hl
    rw [List.isEmpty_iff] at hacc
    simp [splitKeepAux, hacc] at hl
  | case2 acc hacc =>
    intro h l hl
    rw [splitKeepAux, if_neg hacc] at hl
    rcases List.mem_singleton.mp hl with rfl
    exact ⟨acc.reverse, [], by simp, fun c hc => h c (List.mem_reverse.mp hc), Or.inl rfl⟩
  | case3 rest acc ih =>
    intro h l hl
    rw [splitKeepAux_rn] at hl
    rcases List.mem_cons.mp hl with rfl | hl2
    · exact ⟨acc.reverse, S ("\r\n"), rfl, fun c hc => h c (List.mem_reverse.mp hc),
        by simp [S]⟩
    · exact ih (by simp) l hl2
  | case4 rest acc hg ih =>
    intro h l hl
    rw [splitKeepAux_r rest acc (fun r2 hr => hg r2 hr)] at hl
    rcases List.mem_cons.mp hl with rfl | hl2
    · exact ⟨acc.reverse, ['\r'], rfl, fun c hc => h c (List.mem_reverse.mp hc), by simp⟩
    · exact ih (by simp) l hl2
  | case5 rest acc ih =>
    intro h l hl
    rw [splitKeepAux_n] at hl
    rcases List.mem_cons.mp hl with rfl | hl2
    · exact ⟨acc.reverse, ['\n'], rfl, fun c hc => h c (List.mem_reverse.mp hc), by simp⟩
    · exact ih (by simp) l hl2
  | case6 c rest acc hg h1 h2 ih =>
    intro h l hl
    rw [splitKeepAux_other c rest acc h1 h2] at hl
    refine ih ?_ l hl
    intro d hd
    rcases List.mem_cons.mp hd with rfl | hd2
    · exact ⟨h2, h1⟩
    · exact h d hd2

theorem splitKeep_shape (s : LC) : ∀ l ∈ splitKeep s, lineShape l :=
  splitKeepAux_shape s [] (by simp)

theorem term_ws {term : LC}
    (ht : term = [] ∨ term = ['\n'] ∨ term = ['\r'] ∨ term = ['\r', '\n']) :
    ∀ c ∈ term, isPyWs c = true := by
  rcases ht with rfl | rfl | rfl | rfl <;> decide

theorem pyStrip_subset_core (core term : LC) (ht : ∀ c ∈ term, isPyWs c = true) :
    ∀ c ∈ pyStrip (core ++ term), c ∈ core := by
  intro c hc
  rw [pyStrip, pyRstrip_append_ws core term ht] at hc
  have h1 : pyLstrip (pyRstrip core) <:+ pyRstrip core := List.dropWhile_suffix _
  have h2 : pyRstrip core <+: core := pyRstrip_pref core
  exact h2.sublist.subset (h1.sublist.subset hc)

theorem dropEol_core (core term : LC) (hc : ∀ c ∈ core, c ≠ '\n' ∧ c ≠ '\r')
    (ht : term = [] ∨ term = ['\n'] ∨ term = ['\r'] ∨ term = ['\r', '\n']) :
    dropEol (core ++ term) = core := by
  have hcr : '\r' ∉ core := fun h => (hc _ h).2 rfl
  have hcn : '\n' ∉ core := fun h => (hc _ h).1 rfl
  have hrn : ∀ x : LC, '\r' ∉ x → (S ("\r\n")).isSuffixOf x = false := by
    intro x hx
    cases hb : (S ("\r\n")).isSuffixOf x with
    | false => rfl
    | true =>
      exact absurd ((List.isSuffixOf_iff_suffix.mp hb).sublist.subset
        (by simp [S] : '\r' ∈ S ("\r\n"))) hx
  rcases ht with rfl | rfl | rfl | rfl
  · rw [List.append_nil, dropEol, if_neg (by simp [hrn core hcr])]
    have h1 : ['\n'].isSuffixOf core = false := by
      cases hb : ['\n'].isSuffixOf core with
      | true => exact absurd ((List.isSuffixOf_iff_suffix.mp hb).sublist.subset (by simp)) hcn
      | false => rfl
    have h2 : ['\r'].isSuffixOf core = false := by
      cases hb : ['\r'].isSuffixOf core with
      | true => exact absurd ((List.isSuffixOf_iff_suffix.mp hb).sublist.subset (by simp)) hcr
      | false => rfl
    rw [if_neg (by simp [h1, h2])]
  · have hno : '\r' ∉ core ++ ['\n'] := by
      intro h
      rcases List.mem_append.mp h with h1 | h1
      · exact hcr h1
      · simp at h1
    rw [dropEol, if_neg (by simp [hrn _ hno])]
    rw [if_pos (by
      have h3 : ['\n'].isSuffixOf (core ++ ['\n']) = true :=
        List.isSuffixOf_iff_suffix.mpr ⟨core, rfl⟩
      simp [h3])]
    rw [List.dropLast_concat]
  · have hrn2 : (S ("\r\n")).isSuffixOf (core ++ ['\r']) = false := by
      cases hb : (S ("\r\n")).isSuffixOf (core ++ ['\r']) with
      | false => rfl
      | true =>
        exfalso
        have hsub := (List.isSuffixOf_iff_suffix.mp hb).sublist.subset
          (by simp [S] : '\n' ∈ S ("\r\n"))
        rcases List.mem_append.mp hsub with h1 | h1
        · exact hcn h1
        · simp at h1
    rw [dropEol, if_neg (by simp [hrn2])]
    rw [if_pos (by
      have h3 : ['\r'].isSuffixOf (core ++ ['\r']) = true :=
        List.isSuffixOf_iff_suffix.mpr ⟨core, rfl⟩
      simp [h3])]
    rw [List.dropLast_concat]
  · rw [dropEol, if_pos (List.isSuffixOf_iff_suffix.mpr ⟨core, by simp [S]⟩)]
    rw [show core ++ ['\r', '\n'] = (core ++ ['\r']) ++ ['\n'] by simp]
    rw [List.dropLast_concat, List.dropLast_concat]

/-! ### The comma fix pass of `format_create_table` -/

theorem startsWithPar_fixL (l : LC) : startsWithPar (fixL l) = startsWithPar l := by
  cases l with
  | nil => rfl
  | cons c cs =>
    by_cases hc : c = ')'
    · subst hc
      have h1 : pyRstrip (')' :: cs) = ')' :: pyRstrip cs := dropWhileR_cons_of_neg cs (by decide)
      have h2 : rstripComma (')' :: pyRstrip cs) = ')' :: rstripComma (pyRstrip cs) :=
        dropWhileR_cons_of_neg _ (by decide)
      rw [fixL, h1, h2]
      simp [startsWithPar, List.isPrefixOf]
    · have hr : startsWithPar (c :: cs) = false := by
        simp only [startsWithPar, List.isPrefixOf, Bool.and_eq_false_iff]
        left
        rw [beq_eq_false_iff_ne]
        exact fun h => hc h.symm
      rw [hr, fixL]
      cases hz : rstripComma (pyRstrip (c :: cs)) with
      | nil => rfl
      | cons d zs =>
        have hpre : (d :: zs) <+: (c :: cs) :=
          hz ▸ (rstripComma_pref (pyRstrip (c :: cs))).trans (pyRstrip_pref (c :: cs))
        have hdc : d = c := (List.cons_prefix_cons.mp hpre).1
        simp only [List.cons_append, startsWithPar, List.isPrefixOf, Bool.and_eq_false_iff]
        left
        rw [beq_eq_false_iff_ne, hdc]
        exact fun h => hc h.symm

def lastContentComma (m : LC) : Bool := [','].isSuffixOf (dropEol m)

theorem lastContentComma_fixL (core term : LC) (hc : ∀ c ∈ core, c ≠ '\n' ∧ c ≠ '\r')
    (ht : term = [] ∨ term = ['\n'] ∨ term = ['\r'] ∨ term = ['\r', '\n']) :
    lastContentComma (fixL (core ++ term)) = false := by
  rw [lastContentComma, fixL, pyRstrip_append_ws core term (term_ws ht)]
  have hz : ∀ c ∈ rstripComma (pyRstrip core), c ∈ core := by
    intro c hcc
    exact (pyRstrip_pref core).sublist.subset ((rstripComma_pref _).sublist.subset hcc)
  have hshape : dropEol (rstripComma (pyRstrip core) ++ ['\n']) = rstripComma (pyRstrip core) :=
    dropEol_core _ _ (fun c hcc => hc c (hz c hcc)) (Or.inr (Or.inl rfl))
  rw [hshape]
  exact rstripComma_no_comma_end (pyRstrip core)

def fixPass : List LC → List LC
  | [] => []
  | [l] => [l]
  | l :: l2 :: rest => (if startsWithPar l2 then fixL l else l) :: fixPass (l2 :: rest)

/-- `format_create_table`'s loop without the membership filter. -/
def fctAuxNF : List LC → List LC → List LC
  | [], acc => acc.reverse
  | l :: ls, acc => fctAuxNF ls (l :: (if startsWithPar l then fctFix acc else acc))

theorem fctAux_filter (deferred : List LC)
    (hpar : ∀ l ∈ deferred, startsWithPar l = false) :
    ∀ ls acc, fctAux deferred ls acc = fctAuxNF (ls.filter (fun l => !deferred.elem l)) acc := by
  intro ls
  induction ls with
  | nil => intro acc; rfl
  | cons l ls ih =>
    intro acc
    by_cases hm : l ∈ deferred
    · have helem : deferred.elem l = true := List.elem_iff.mpr hm
      rw [fctAux, List.filter_cons, if_neg (by simp [hm])]
      rw [fctStep, if_pos hm, hpar l hm]
      simp only [Bool.false_eq_true, if_false]
      exact ih acc
    · have helem : deferred.elem l = false := by
        cases hb : deferred.elem l with
        | false => rfl
        | true => exact absurd (List.elem_iff.mp hb) hm
      rw [fctAux, List.filter_cons, if_pos (by simp [hm])]
      rw [fctStep, if_neg hm, fctAuxNF]
      exact ih _

theorem fctAuxNF_acc : ∀ (ks : List LC) (a : LC) (rest2 : List LC),
    fctAuxNF ks (a :: rest2) = rest2.reverse ++ fixPass (a :: ks) := by
  intro ks
  induction ks with
  | nil => intro a rest2; simp [fctAuxNF, fixPass]
  | cons k ks ih =>
    intro a rest2
    rw [fctAuxNF]
    by_cases hp : startsWithPar k
    · rw [if_pos hp]
      rw [show fctFix (a :: rest2) = fixL a :: rest2 from rfl]
      rw [ih k (fixL a :: rest2)]
      rw [show fixPass (a :: k :: ks) = fixL a :: fixPass (k :: ks) by rw [fixPass, if_pos hp]]
      simp
    · rw [if_neg hp]
      rw [ih k (a :: rest2)]
      rw [show fixPass (a :: k :: ks) = a :: fixPass (k :: ks) by rw [fixPass, if_neg hp]]
      simp

theorem fctAuxNF_nil (ks : List LC) : fctAuxNF ks [] = fixPass ks := by
  cases ks with
  | nil => rfl
  | cons k ks =>
    rw [fctAuxNF]
    have hm : (if startsWithPar k then fctFix [] else []) = ([] : List LC) := by
      by_cases hp : startsWithPar k <;> simp [hp, fctFix]
    rw [hm, fctAuxNF_acc ks k []]
    rfl

theorem mem_fixPass : ∀ (ks : List LC) (x : LC), x ∈ fixPass ks →
    ∃ k ∈ ks, x = k ∨ x = fixL k := by
  intro ks
  induction ks using fixPass.induct with
  | case1 => intro x hx; simp [fixPass] at hx
  | case2 l => intro x hx; rw [fixPass] at hx; exact ⟨l, by simp, Or.inl (List.mem_singleton.mp hx)⟩
  | case3 l l2 rest ih =>
    intro x hx
    rw [fixPass] at hx
    rcases List.mem_cons.mp hx with rfl | hx2
    · by_cases hp : startsWithPar l2
      · exact ⟨l, by simp, Or.inr (by rw [if_pos hp])⟩
      · exact ⟨l, by simp, Or.inl (by rw [if_neg hp])⟩
    · obtain ⟨k, hk, hor⟩ := ih x hx2
      exact ⟨k, List.mem_cons_of_mem _ hk, hor⟩

theorem head_fixPass (l2 : LC) (rest : List LC) :
    ∃ y, (fixPass (l2 :: rest)).head? = some y ∧ startsWithPar y = startsWithPar l2 := by
  cases rest with
  | nil => exact ⟨l2, rfl, rfl⟩
  | cons l3 r =>
    rw [fixPass]
    refine ⟨_, rfl, ?_⟩
    by_cases h3 : startsWithPar l3
    · rw [if_pos h3, startsWithPar_fixL]
    · rw [if_neg h3]

theorem fixPass_chain (ks : List LC) (hks : ∀ l ∈ ks, lineShape l) :
    List.Chain' (fun a b => startsWithPar b = true → lastContentComma a = false)
      (fixPass ks) := by
  induction ks using fixPass.induct with
  | case1 => simp [fixPass]
  | case2 l => simp [fixPass]
  | case3 l l2 rest ih =>
    rw [fixPass]
    rw [List.chain'_cons']
    constructor
    · intro y hy hpy
      obtain ⟨y', hy', hpy'⟩ := head_fixPass l2 rest
      rw [hy'] at hy
      cases hy
      rw [hpy'] at hpy
      rw [if_pos hpy]
      obtain ⟨core, term, hlc, hcc, htt⟩ := hks l (by simp)
      rw [hlc]
      exact lastContentComma_fixL core term hcc htt
    · exact ih (fun l hl => hks l (List.mem_cons_of_mem _ hl))

theorem fixPass_forall2 : ∀ ks : List LC,
    List.Forall₂ (fun o k => o = k ∨ o = fixL k) (fixPass ks) ks := by
  intro ks
  induction ks using fixPass.induct with
  | case1 => simp [fixPass]
  | case2 l => rw [fixPass]; exact List.Forall₂.cons (Or.inl rfl) List.Forall₂.nil
  | case3 l l2 rest ih =>
    rw [fixPass]
    refine List.Forall₂.cons ?_ ih
    by_cases hp : startsWithPar l2
    · rw [if_pos hp]; exact Or.inr rfl
    · rw [if_neg hp]; exact Or.inl rfl

theorem fixPass_id (ks : List LC)
    (h : List.Chain' (fun a b => startsWithPar b = true → fixL a = a) ks) :
    fixPass ks = ks := by
  induction ks using fixPass.induct with
  | case1 => rfl
  | case2 l => rfl
  | case3 l l2 rest ih =>
    rw [List.chain'_cons] at h
    rw [fixPass, ih h.2]
    by_cases hp : startsWithPar l2
    · rw [if_pos hp, h.1 hp]
    · rw [if_neg hp]

/-! ### Facts about the patterns and the extractors -/

theorem entryOf_key_par (xs : LC) : entryOf keyCRE (')' :: xs) = none := rfl

theorem entryOf_cons_par (xs : LC) : entryOf consCRE (')' :: xs) = none := rfl

theorem isKeyLine_par (l : LC) (h : startsWithPar l = true) : isKeyLine l = false := by
  cases l with
  | nil => cases h
  | cons c cs =>
    have hc : c = ')' := by
      simp only [startsWithPar, List.isPrefixOf, Bool.and_eq_true, beq_iff_eq] at h
      exact h.1.symm
    subst hc
    rw [isKeyLine, entryOf_key_par]
    rfl

theorem isConsLine_par (l : LC) (h : startsWithPar l = true) : isConsLine l = false := by
  cases l with
  | nil => cases h
  | cons c cs =>
    have hc : c = ')' := by
      simp only [startsWithPar, List.isPrefixOf, Bool.and_eq_true, beq_iff_eq] at h
      exact h.1.symm
    subst hc
    rw [isConsLine, entryOf_cons_par]
    rfl

theorem entryOf_line {re : RE} {l : LC} {e : Entry} (h : entryOf re l = some e) :
    e.line = l := by
  rw [entryOf] at h
  cases hm : reMatch re l with
  | none =>
    rw [hm] at h
    dsimp only at h
    cases h
  | some caps =>
    rw [hm] at h
    dsimp only at h
    rcases h1 : capGet caps 1 with _ | g1 <;>
      rcases h2 : capGet caps 2 with _ | g2 <;>
        rw [h1, h2] at h <;> dsimp only at h
    · cases h
    · cases h
    · cases h
    · cases h
      rfl

theorem mem_extract_gen (re : RE) (ddl : LC) (l : LC) :
    l ∈ ((splitKeep ddl).filterMap (fun m => entryOf re m)).map (fun e => e.line) ↔
      (l ∈ splitKeep ddl ∧ (entryOf re l).isSome = true) := by
  constructor
  · intro h
    obtain ⟨e, he, hline⟩ := List.mem_map.mp h
    obtain ⟨l2, hl2, hf⟩ := List.mem_filterMap.mp he
    have := entryOf_line hf
    rw [← hline, this]
    exact ⟨hl2, by rw [hf]; rfl⟩
  · rintro ⟨hmem, hsome⟩
    cases he : entryOf re l with
    | none => rw [he] at hsome; cases hsome
    | some e =>
      refine List.mem_map.mpr ⟨e, List.mem_filterMap.mpr ⟨l, hmem, he⟩, entryOf_line he⟩

theorem mem_extract_indexes_line (ddl l : LC) :
    l ∈ (extract_indexes ddl).map (fun e => e.line) ↔
      (l ∈ splitKeep ddl ∧ isKeyLine l = true) :=
  mem_extract_gen keyCRE ddl l

theorem mem_extract_constraints_line (ddl l : LC) :
    l ∈ (extract_constraints ddl).map (fun e => e.line) ↔
      (l ∈ splitKeep ddl ∧ isConsLine l = true) :=
  mem_extract_gen consCRE ddl l

/-- Soundness of the engine: a match leaves a suffix of the input, and every
captured group is an infix of the input. -/
theorem reRun_sound (re : RE) : ∀ (s : LC) (pr : Caps × LC), pr ∈ reRun re s →
    pr.2 <:+ s ∧ ∀ nv ∈ pr.1, nv.2 <:+: s := by
  induction re with
  | eps =>
    intro s pr hpr
    rw [reRun, List.mem_singleton] at hpr
    subst hpr
    exact ⟨List.suffix_refl s, by simp⟩
  | chr c =>
    intro s pr hpr
    cases s with
    | nil => simp [reRun] at hpr
    | cons x xs =>
      rw [reRun] at hpr
      by_cases hx : x = c
      · rw [if_pos hx, List.mem_singleton] at hpr
        subst hpr
        exact ⟨List.suffix_cons x xs, by simp⟩
      · rw [if_neg hx] at hpr; cases hpr
  | lit t =>
    intro s pr hpr
    rw [reRun] at hpr
    by_cases hp : t.isPrefixOf s
    · rw [if_pos hp, List.mem_singleton] at hpr
      subst hpr
      exact ⟨List.drop_suffix t.length s, by simp⟩
    · rw [if_neg hp] at hpr; cases hpr
  | cat a b iha ihb =>
    intro s pr hpr
    rw [reRun, List.mem_flatMap] at hpr
    obtain ⟨pr1, hpr1, hmap⟩ := hpr
    obtain ⟨qr, hqr, hpr_eq⟩ := List.mem_map.mp hmap
    subst hpr_eq
    have h1 := iha s pr1 hpr1
    have h2 := ihb pr1.2 qr hqr
    refine ⟨h2.1.trans h1.1, ?_⟩
    intro nv hnv
    rcases List.mem_append.mp hnv with hl | hr
    · exact h1.2 nv hl
    · exact (h2.2 nv hr).trans h1.1.isInfix
  | alt a b iha ihb =>
    intro s pr hpr
    rw [reRun] at hpr
    rcases List.mem_append.mp hpr with h | h
    · exact iha s pr h
    · exact ihb s pr h
  | opt a iha =>
    intro s pr hpr
    rw [reRun] at hpr
    rcases List.mem_append.mp hpr with h | h
    · exact iha s pr h
    · rw [List.mem_singleton] at h
      subst h
      exact ⟨List.suffix_refl s, by simp⟩
  | starC p =>
    intro s pr hpr
    rw [reRun] at hpr
    obtain ⟨j, _, hpr_eq⟩ := List.mem_map.mp hpr
    subst hpr_eq
    exact ⟨List.drop_suffix _ s, by simp⟩
  | plusC p =>
    intro s pr hpr
    rw [reRun] at hpr
    obtain ⟨j, _, hpr_eq⟩ := List.mem_map.mp hpr
    subst hpr_eq
    exact ⟨List.drop_suffix _ s, by simp⟩
  | grp n a iha =>
    intro s pr hpr
    rw [reRun] at hpr
    obtain ⟨pr1, hpr1, hpr_eq⟩ := List.mem_map.mp hpr
    subst hpr_eq
    have h1 := iha s pr1 hpr1
    refine ⟨h1.1, ?_⟩
    intro nv hnv
    rcases List.mem_append.mp hnv with hl | hr
    · exact h1.2 nv hl
    · rw [List.mem_singleton] at hr
      subst hr
      exact (List.take_prefix _ s).isInfix
  | eol =>
    intro s pr hpr
    rw [reRun] at hpr
    by_cases hs : s = [] || s = ['\n']
    · rw [if_pos hs, List.mem_singleton] at hpr
      subst hpr
      exact ⟨List.suffix_refl s, by simp⟩
    · rw [if_neg hs] at hpr; cases hpr

theorem splitNoKeep_clean (s : LC) : ∀ l ∈ splitNoKeep s, ∀ c ∈ l, c ≠ '\n' ∧ c ≠ '\r' := by
  intro l hl
  obtain ⟨l2, hl2, hdrop⟩ := List.mem_map.mp hl
  obtain ⟨core, term, rfl, hcc, htt⟩ := splitKeep_shape s l2 hl2
  rw [dropEol_core core term hcc htt] at hdrop
  subst hdrop
  exact hcc

theorem extract_table_name_clean (ddl nm : LC) (h : extract_table_name ddl = some nm) :
    ∀ c ∈ nm, c ≠ '\n' ∧ c ≠ '\r' := by
  rw [extract_table_name] at h
  obtain ⟨l, hl, hf⟩ := List.exists_of_findSome?_eq_some h
  cases hm : reMatch identCRE l with
  | none => rw [hm] at hf; cases hf
  | some caps =>
    rw [hm] at hf
    dsimp only [Option.bind] at hf
    rw [capGet] at hf
    obtain ⟨pr2, hfind⟩ := Option.map_eq_some'.mp hf
    have hmem := List.mem_of_find?_eq_some hfind.1
    have hpr : ∃ pr, pr ∈ reRun identCRE l ∧ pr.1 = caps := by
      rw [reMatch] at hm
      obtain ⟨pr0, hpr0⟩ := Option.map_eq_some'.mp hm
      exact ⟨pr0, List.mem_of_mem_head? (by rw [hpr0.1]; rfl), hpr0.2⟩
    obtain ⟨pr, hprmem, hcaps⟩ := hpr
    have hsound := (reRun_sound identCRE l pr hprmem).2 pr2 (by rw [hcaps]; exact hmem)
    intro c hc
    have hcl : c ∈ l := hsound.sublist.subset (by rw [hfind.2]; exact hc)
    exact splitNoKeep_clean ddl l hl c hcl

/-! ### Structure of the generated ALTER TABLE text -/

def addMarker : LC := S ("\n  ADD ")

/-- Strip trailing commas from the final clause only. -/
def adjLast : List LC → List LC
  | [] => []
  | [c] => [rstripComma c]
  | c :: cs => c :: adjLast cs

/-- The `  ADD <clause>` lines of the generated statement: every clause on
its own line, the last one carrying the `;` terminator. -/
def addLines : List LC → List LC
  | [] => []
  | [c] => [S ("  ADD ") ++ c ++ [';']]
  | c :: cs => (S ("  ADD ") ++ c ++ ['\n']) :: addLines cs

/-- Recover the clause text from an `  ADD ` line of the ALTER statement. -/
def clauseOfLine (l : LC) : LC :=
  if [';'].isSuffixOf (l.drop 6) then (l.drop 6).dropLast else dropEol (l.drop 6)

/-- The ADD clauses of a generated ALTER TABLE text, read back from its
lines. -/
def addClauseTexts (a : LC) : List LC :=
  ((splitKeep a).filter (fun l => (S ("  ADD ")).isPrefixOf l)).map clauseOfLine

theorem joinSep_cons (m x : LC) (ys : List LC) (h : ys ≠ []) :
    joinSep m (x :: ys) = x ++ m ++ joinSep m ys := by
  cases ys with
  | nil => exact absurd rfl h
  | cons y ys2 => rfl

theorem adjLast_ne_nil (c : LC) (cs : List LC) : adjLast (c :: cs) ≠ [] := by
  cases cs <;> simp [adjLast]

theorem adjLast_length : ∀ cs : List LC, (adjLast cs).length = cs.length := by
  intro cs
  induction cs with
  | nil => rfl
  | cons c cs ih =>
    cases cs with
    | nil => rfl
    | cons c2 cs2 =>
      rw [show adjLast (c :: c2 :: cs2) = c :: adjLast (c2 :: cs2) from rfl]
      simp [ih]

theorem mem_adjLast : ∀ (cs : List LC) (c : LC), c ∈ adjLast cs →
    ∃ c0 ∈ cs, c = c0 ∨ c = rstripComma c0 := by
  intro cs
  induction cs with
  | nil => intro c hc; simp [adjLast] at hc
  | cons c0 cs ih =>
    intro c hc
    cases cs with
    | nil =>
      rw [show adjLast [c0] = [rstripComma c0] from rfl, List.mem_singleton] at hc
      exact ⟨c0, by simp, Or.inr hc⟩
    | cons c2 cs2 =>
      rw [show adjLast (c0 :: c2 :: cs2) = c0 :: adjLast (c2 :: cs2) from rfl] at hc
      rcases List.mem_cons.mp hc with rfl | hc2
      · exact ⟨c, by simp, Or.inl rfl⟩
      · obtain ⟨d, hd, hor⟩ := ih c hc2
        exact ⟨d, List.mem_cons_of_mem _ hd, hor⟩

theorem getLast?_append_marker (x : LC) : (x ++ addMarker).getLast? = some ' ' := by
  rw [← List.head?_reverse, List.reverse_append]
  rfl

theorem rsc_joinSep : ∀ cs : List LC, cs ≠ [] →
    rstripComma (joinSep addMarker cs) = joinSep addMarker (adjLast cs) := by
  intro cs
  induction cs with
  | nil => intro h; exact absurd rfl h
  | cons c cs ih =>
    intro _
    cases cs with
    | nil => rfl
    | cons c2 cs2 =>
      rw [joinSep_cons _ _ _ (by simp)]
      rw [rstripComma_append _ _ (by rw [getLast?_append_marker]; simp)]
      rw [ih (by simp)]
      rw [show adjLast (c :: c2 :: cs2) = c :: adjLast (c2 :: cs2) from rfl]
      rw [joinSep_cons _ _ _ (adjLast_ne_nil c2 cs2)]

def alterBanner (table : LC) : LC :=
  S ("--\n-- InnoDB Fast Index Creation (generated by dbsake)\n--\n\nALTER TABLE `") ++ table

theorem alter_join_decomp (table : LC) (lines : List LC) :
    joinSep ['\n'] (alterTemplate table lines) =
      (alterBanner table ++ S ("`\n  ADD ")) ++ joinSep addMarker lines := by
  rw [alterTemplate, alterBanner]
  simp only [joinSep, addMarker, List.append_assoc, List.cons_append, List.nil_append]
  rfl

theorem termfree_append {x y : LC} (hx : ∀ c ∈ x, c ≠ '\n' ∧ c ≠ '\r')
    (hy : ∀ c ∈ y, c ≠ '\n' ∧ c ≠ '\r') : ∀ c ∈ x ++ y, c ≠ '\n' ∧ c ≠ '\r' := by
  intro c hc
  rcases List.mem_append.mp hc with h | h
  · exact hx c h
  · exact hy c h

theorem splitKeep_chunk : ∀ cs : List LC, cs ≠ [] →
    (∀ c ∈ cs, ∀ d ∈ c, d ≠ '\n' ∧ d ≠ '\r') →
    splitKeep ((S ("  ADD ") ++ joinSep addMarker cs) ++ [';']) = addLines cs := by
  intro cs
  induction cs with
  | nil => intro h; exact absurd rfl h
  | cons c cs ih =>
    intro _ hterm
    cases cs with
    | nil =>
      rw [show joinSep addMarker [c] = c from rfl]
      rw [splitKeep_last _ (termfree_append (termfree_append (by decide)
        (hterm c (by simp))) (by decide))]
      rw [if_neg (by simp [S])]
      rfl
    | cons c2 cs2 =>
      have hm : addMarker = '\n' :: S ("  ADD ") := rfl
      have hw : (S ("  ADD ") ++ joinSep addMarker (c :: c2 :: cs2)) ++ [';'] =
          (S ("  ADD ") ++ c) ++ '\n' :: ((S ("  ADD ") ++ joinSep addMarker (c2 :: cs2)) ++ [';']) := by
        rw [joinSep_cons _ _ _ (by simp), hm]
        simp [List.append_assoc]
      rw [hw, splitKeep_line (S ("  ADD ") ++ c)
        (termfree_append (by decide) (hterm c (by simp))) _]
      rw [ih (by simp) (fun d hd => hterm d (List.mem_cons_of_mem _ hd))]
      rfl

theorem splitKeep_alter (table : LC) (cs : List LC)
    (hta : ∀ c ∈ table, c ≠ '\n' ∧ c ≠ '\r') (hcs : cs ≠ [])
    (hterm : ∀ c ∈ cs, ∀ d ∈ c, d ≠ '\n' ∧ d ≠ '\r') :
    splitKeep (((alterBanner table ++ S ("`\n  ADD ")) ++ joinSep addMarker cs) ++ [';']) =
      [S ("--\n"), S ("-- InnoDB Fast Index Creation (generated by dbsake)\n"), S ("--\n"),
       S ("\n"), (S ("ALTER TABLE `") ++ table) ++ S ("`\n")] ++ addLines cs := by
  have h1 : ((alterBanner table ++ S ("`\n  ADD ")) ++ joinSep addMarker cs) ++ [';'] =
      S ("--") ++ '\n' :: (S ("-- InnoDB Fast Index Creation (generated by dbsake)") ++ '\n' ::
        (S ("--") ++ '\n' :: ('\n' :: (((S ("ALTER TABLE `") ++ table) ++ S ("`")) ++ '\n' ::
          ((S ("  ADD ") ++ joinSep addMarker cs) ++ [';']))))) := by
    rw [alterBanner]
    simp only [List.append_assoc, List.cons_append, List.nil_append]
    rfl
  rw [h1]
  rw [splitKeep_line (S ("--")) (by decide) _]
  rw [splitKeep_line (S ("-- InnoDB Fast Index Creation (generated by dbsake)")) (by decide) _]
  rw [splitKeep_line (S ("--")) (by decide) _]
  rw [show ('\n' :: (((S ("ALTER TABLE `") ++ table) ++ S ("`")) ++ '\n' ::
      ((S ("  ADD ") ++ joinSep addMarker cs) ++ [';']))) =
    ([] : LC) ++ '\n' :: (((S ("ALTER TABLE `") ++ table) ++ S ("`")) ++ '\n' ::
      ((S ("  ADD ") ++ joinSep addMarker cs) ++ [';'])) from rfl]
  rw [splitKeep_line ([] : LC) (by simp) _]
  rw [splitKeep_line ((S ("ALTER TABLE `") ++ table) ++ S ("`"))
    (termfree_append (termfree_append (by decide) hta) (by decide)) _]
  rw [splitKeep_chunk cs hcs hterm]
  simp only [List.cons_append, List.nil_append, List.append_assoc, List.cons.injEq]
  and_intros <;> first | rfl | trivial

theorem semi_suffix_nl (c : LC) : [';'].isSuffixOf (c ++ ['\n']) = false := by
  rw [List.isSuffixOf]
  have h1 : (c ++ ['\n']).reverse = '\n' :: c.reverse := by simp
  rw [h1]
  rfl

theorem isPrefixOf_append_self (x y : LC) : x.isPrefixOf (x ++ y) = true := by
  induction x with
  | nil => simp [List.isPrefixOf]
  | cons a x ih => simp [List.isPrefixOf, ih]

theorem semi_suffix_semi (c : LC) : [';'].isSuffixOf (c ++ [';']) = true := by
  simp only [List.isSuffixOf_iff_suffix]
  exact ⟨c, rfl⟩

theorem clauseOfLine_mid (c : LC) (hc : ∀ d ∈ c, d ≠ '\n' ∧ d ≠ '\r') :
    clauseOfLine ((S ("  ADD ") ++ c) ++ ['\n']) = c := by
  have hd : ((S ("  ADD ") ++ c) ++ ['\n']).drop 6 = c ++ ['\n'] := by
    rw [List.append_assoc, show (6 : Nat) = (S ("  ADD ")).length from rfl, List.drop_left]
  rw [clauseOfLine, hd, semi_suffix_nl, if_neg (by simp)]
  exact dropEol_core c ['\n'] hc (Or.inr (Or.inl rfl))

theorem clauseOfLine_last (c : LC) :
    clauseOfLine ((S ("  ADD ") ++ c) ++ [';']) = c := by
  have hd : ((S ("  ADD ") ++ c) ++ [';']).drop 6 = c ++ [';'] := by
    rw [List.append_assoc, show (6 : Nat) = (S ("  ADD ")).length from rfl, List.drop_left]
  rw [clauseOfLine, hd, semi_suffix_semi, if_pos rfl, List.dropLast_concat]

theorem map_clause_addLines : ∀ cs : List LC,
    (∀ c ∈ cs, ∀ d ∈ c, d ≠ '\n' ∧ d ≠ '\r') →
    (addLines cs).map clauseOfLine = cs := by
  intro cs
  induction cs with
  | nil => intro _; rfl
  | cons c cs ih =>
    intro hterm
    cases cs with
    | nil =>
      rw [show addLines [c] = [S ("  ADD ") ++ c ++ [';']] from rfl]
      rw [List.map_singleton, clauseOfLine_last]
    | cons c2 cs2 =>
      rw [show addLines (c :: c2 :: cs2) =
        (S ("  ADD ") ++ c ++ ['\n']) :: addLines (c2 :: cs2) from rfl]
      rw [List.map_cons, clauseOfLine_mid c (hterm c (by simp))]
      rw [ih (fun d hd => hterm d (List.mem_cons_of_mem _ hd))]

theorem filter_addLines : ∀ cs : List LC,
    (addLines cs).filter (fun l => (S ("  ADD ")).isPrefixOf l) = addLines cs := by
  intro cs
  induction cs with
  | nil => rfl
  | cons c cs ih =>
    cases cs with
    | nil =>
      rw [show addLines [c] = [S ("  ADD ") ++ c ++ [';']] from rfl]
      rw [List.filter_cons,
        if_pos (by rw [List.append_assoc]; exact isPrefixOf_append_self _ _)]
      rfl
    | cons c2 cs2 =>
      rw [show addLines (c :: c2 :: cs2) =
        (S ("  ADD ") ++ c ++ ['\n']) :: addLines (c2 :: cs2) from rfl]
      rw [List.filter_cons,
        if_pos (by rw [List.append_assoc]; exact isPrefixOf_append_self _ _), ih]

theorem addClauseTexts_alter (table : LC) (cs : List LC)
    (hta : ∀ c ∈ table, c ≠ '\n' ∧ c ≠ '\r') (hcs : cs ≠ [])
    (hterm : ∀ c ∈ cs, ∀ d ∈ c, d ≠ '\n' ∧ d ≠ '\r') :
    addClauseTexts (((alterBanner table ++ S ("`\n  ADD ")) ++ joinSep addMarker cs) ++ [';']) =
      cs := by
  rw [addClauseTexts, splitKeep_alter table cs hta hcs hterm]
  rw [List.filter_append]
  have hb : ([S ("--\n"), S ("-- InnoDB Fast Index Creation (generated by dbsake)\n"),
      S ("--\n"), S ("\n"), (S ("ALTER TABLE `") ++ table) ++ S ("`\n")]).filter
      (fun l => (S ("  ADD ")).isPrefixOf l) = [] := by
    have h5 : (S ("  ADD ")).isPrefixOf ((S ("ALTER TABLE `") ++ table) ++ S ("`\n")) = false := by
      cases hb2 : (S ("  ADD ")).isPrefixOf ((S ("ALTER TABLE `") ++ table) ++ S ("`\n")) with
      | false => rfl
      | true =>
        exfalso
        obtain ⟨t, ht⟩ := List.isPrefixOf_iff_prefix.mp hb2
        have hh := congrArg List.head? ht
        rw [show ((S ("  ADD ")) ++ t).head? = some ' ' from rfl] at hh
        rw [show (((S ("ALTER TABLE `") ++ table) ++ S ("`\n"))).head? = some 'A' from rfl] at hh
        cases hh
    rw [List.filter_cons, if_neg (by decide), List.filter_cons, if_neg (by decide),
      List.filter_cons, if_neg (by decide), List.filter_cons, if_neg (by decide),
      List.filter_cons, if_neg (by rw [h5]; exact Bool.false_ne_true)]
    rfl
  rw [hb, filter_addLines, List.nil_append]
  exact map_clause_addLines cs hterm

theorem pyStrip_clean_of_mem_splitKeep (ddl l : LC) (hl : l ∈ splitKeep ddl) :
    ∀ d ∈ pyStrip l, d ≠ '\n' ∧ d ≠ '\r' := by
  obtain ⟨core, term, rfl, hcc, htt⟩ := splitKeep_shape ddl l hl
  intro d hd
  exact hcc d (pyStrip_subset_core core term (term_ws htt) d hd)

theorem extract_line_mem {re : RE} {ddl : LC} :
    ∀ e ∈ (splitKeep ddl).filterMap (fun m => entryOf re m), e.line ∈ splitKeep ddl := by
  intro e he
  obtain ⟨l2, hl2, hf⟩ := List.mem_filterMap.mp he
  rw [entryOf_line hf]
  exact hl2

theorem banner_getLast (nm : LC) :
    (alterBanner nm ++ S ("`\n  ADD ")).getLast? = some ' ' := by
  rw [← List.head?_reverse, List.reverse_append]
  rfl

set_option maxHeartbeats 1600000 in
theorem alter_structure (ddl nm : LC) (idxs : List Entry)
    (hnm : extract_table_name ddl = some nm)
    (hlines : ∀ e ∈ idxs, ∀ d ∈ pyStrip e.line, d ≠ '\n' ∧ d ≠ '\r') :
    ∃ alt, format_alter_table ddl idxs = some alt ∧
      addClauseTexts alt = adjLast (idxs.map (fun e => pyStrip e.line)) := by
  rw [format_alter_table, hnm]
  dsimp only
  cases idxs with
  | nil => exact ⟨[], by simp, rfl⟩
  | cons e0 rest0 =>
    rw [if_neg (by simp)]
    refine ⟨_, rfl, ?_⟩
    rw [alter_join_decomp nm ((e0 :: rest0).map (fun e => pyStrip e.line))]
    rw [rstripComma_append _ _ (by rw [banner_getLast nm]; simp)]
    rw [rsc_joinSep _ (by simp)]
    have hne2 : adjLast (List.map (fun e => pyStrip e.line) (e0 :: rest0)) ≠ [] := by
      rw [List.map_cons]
      exact adjLast_ne_nil _ _
    have hterm2 : ∀ c ∈ adjLast (List.map (fun e => pyStrip e.line) (e0 :: rest0)),
        ∀ d ∈ c, d ≠ '\n' ∧ d ≠ '\r' := by
      intro c hc
      obtain ⟨c0, hc0, hor⟩ := mem_adjLast _ c hc
      obtain ⟨e, he, hpe⟩ := List.mem_map.mp hc0
      have hclean : ∀ d ∈ c0, d ≠ '\n' ∧ d ≠ '\r' := by
        rw [← hpe]
        exact hlines e he
      rcases hor with rfl | rfl
      · exact hclean
      · intro d hd
        exact hclean d ((rstripComma_pref c0).sublist.subset hd)
    have hq := addClauseTexts_alter nm
      (adjLast (List.map (fun e => pyStrip e.line) (e0 :: rest0)))
      (extract_table_name_clean ddl nm hnm) hne2 hterm2
    exact hq

theorem fctLines_eq_fixPass (deferred : List LC) (ls : List LC)
    (hpar : ∀ l ∈ deferred, startsWithPar l = false) :
    fctLines deferred ls = fixPass (ls.filter (fun l => !deferred.elem l)) := by
  rw [fctLines, fctAux_filter deferred hpar ls [], fctAuxNF_nil]

theorem keyline_defer_par (ddl : LC) :
    ∀ l ∈ (extract_indexes ddl).map (fun e => e.line), startsWithPar l = false := by
  intro l hl
  cases hp : startsWithPar l with
  | false => rfl
  | true =>
    have := (mem_extract_indexes_line ddl l).mp hl
    rw [isKeyLine_par l hp] at this
    cases this.2

theorem fctLines_extract (ddl : LC) :
    fctLines ((extract_indexes ddl).map (fun e => e.line)) (splitKeep ddl) =
      fixPass ((splitKeep ddl).filter (fun l => !isKeyLine l)) := by
  rw [fctLines_eq_fixPass _ _ (keyline_defer_par ddl)]
  congr 1
  apply List.filter_congr
  intro l hl
  cases hk : isKeyLine l with
  | true =>
    have hmem : l ∈ (extract_indexes ddl).map (fun e => e.line) :=
      (mem_extract_indexes_line ddl l).mpr ⟨hl, hk⟩
    rw [List.elem_iff.mpr hmem]
  | false =>
    cases he : ((extract_indexes ddl).map (fun e => e.line)).elem l with
    | false => rfl
    | true =>
      have := (mem_extract_indexes_line ddl l).mp (List.elem_iff.mp he)
      rw [hk] at this
      cases this.2

/-! ### Claim C5: the round-trip property for index-only DDL -/

def c5cDDL : LC :=
  joinL [S ("CREATE TABLE `t` (\n"), S ("  `a` INT,\n"), S ("  KEY `k` (`a`),\n"),
    S ("  `b` INT\n"), S (") ENGINE=InnoDB;\n")]

def c5cAlter : LC :=
  S ("--\n-- InnoDB Fast Index Creation (generated by dbsake)\n--\n\nALTER TABLE `t`\n  ADD KEY `k` (`a`);")

/-- C5 is false on the code as stated: when the (sole, hence final) index
clause line carries a trailing comma, the generated ALTER TABLE strips that
comma from the final ADD clause, so the clause text does not equal the
whitespace-stripped original index line. -/
theorem c5_counterexample :
    extract_constraints c5cDDL = [] ∧
    (extract_indexes c5cDDL).map (fun e => pyStrip e.line) = [S ("KEY `k` (`a`),")] ∧
    format_alter_table c5cDDL (extract_indexes c5cDDL) = some c5cAlter ∧
    addClauseTexts c5cAlter = [S ("KEY `k` (`a`)")] ∧
    S ("KEY `k` (`a`)") ≠ S ("KEY `k` (`a`),") := by
  exact ⟨rfl, rfl, rfl, rfl, by decide⟩

/-- C5 (amended): for DDL with no constraints and `defer_constraints=false`,
the patched CREATE TABLE is exactly the non-index lines passed through the
comma-fix pass (each output line is the corresponding non-index line, either
verbatim or with its trailing whitespace and commas stripped); every
output line immediately preceding a `)`-starting line ends in no comma
(before its newline); and the returned ALTER TABLE's ADD clauses are exactly
the whitespace-stripped original index lines in order, except that trailing
commas on the final clause are stripped; `split_indexes` returns exactly
that ALTER text. -/
theorem c5_amended_thm (ddl nm : LC)
    (hcons : extract_constraints ddl = [])
    (hnm : extract_table_name ddl = some nm) :
    (fctLines ((extract_indexes ddl).map (fun e => e.line)) (splitKeep ddl) =
      fixPass ((splitKeep ddl).filter (fun l => !isKeyLine l))) ∧
    List.Forall₂ (fun o k => o = k ∨ o = fixL k)
      (fctLines ((extract_indexes ddl).map (fun e => e.line)) (splitKeep ddl))
      ((splitKeep ddl).filter (fun l => !isKeyLine l)) ∧
    List.Chain' (fun a b => startsWithPar b = true → lastContentComma a = false)
      (fctLines ((extract_indexes ddl).map (fun e => e.line)) (splitKeep ddl)) ∧
    (∃ alt, format_alter_table ddl (extract_indexes ddl) = some alt ∧
      addClauseTexts alt = adjLast ((extract_indexes ddl).map (fun e => pyStrip e.line)) ∧
      (addClauseTexts alt).length = (extract_indexes ddl).length) ∧
    (∀ sec : DumpSection, extract_create_table sec.lines = ddl →
      containsSub ddl (S ("ENGINE=InnoDB")) = true →
      ∃ alt, format_alter_table ddl (extract_indexes ddl) = some alt ∧
        (split_indexes sec false).result = Except.ok alt) := by
  have h1 := fctLines_extract ddl
  have hlines : ∀ e ∈ extract_indexes ddl, ∀ d ∈ pyStrip e.line, d ≠ '\n' ∧ d ≠ '\r' := by
    intro e he
    exact pyStrip_clean_of_mem_splitKeep ddl e.line (extract_line_mem e he)
  obtain ⟨alt, halt, hclauses⟩ := alter_structure ddl nm (extract_indexes ddl) hnm hlines
  refine ⟨h1, ?_, ?_, ⟨alt, halt, hclauses, ?_⟩, ?_⟩
  · rw [h1]
    exact fixPass_forall2 _
  · rw [h1]
    refine fixPass_chain _ ?_
    intro l hl
    exact splitKeep_shape ddl l (List.mem_of_mem_filter hl)
  · rw [hclauses, adjLast_length, List.length_map]
  · intro sec hsec hInno
    refine ⟨alt, halt, ?_⟩
    simp only [split_indexes, hsec, hInno, if_true, Bool.false_eq_true, if_false, hcons]
    rw [show buildPreserved [] (extract_indexes ddl) = [] from rfl]
    rw [show removeLoop (extract_indexes ddl) [] = ([], Except.ok (extract_indexes ddl)) from rfl]
    simp only [splitFinish, halt]

def c5wDDL : LC :=
  joinL [S ("CREATE TABLE `t` (\n"), S ("  `a` INT,\n"), S ("  KEY `k1` (`a`),\n"),
    S ("  KEY `k2` (`b`)\n"), S (") ENGINE=InnoDB;\n")]

/-- Witness for C5 (amended) at a two-index, constraint-free DDL. -/
theorem c5_witness :
    fctLines ((extract_indexes c5wDDL).map (fun e => e.line)) (splitKeep c5wDDL) =
      fixPass ((splitKeep c5wDDL).filter (fun l => !isKeyLine l)) :=
  (c5_amended_thm c5wDDL (S ("t")) rfl rfl).1

/-! ### Claim C6: InnoDB DDL with no deferrable clauses -/

def c6aDDL : LC :=
  joinL [S ("CREATE TABLE `t` (\n"), S ("  `a` INT \n"), S (") ENGINE=InnoDB;\n")]

def c6bSec : DumpSection :=
  ⟨S ("d"), S ("t"), [S ("CREATE TABLE t (\n"), S ("  `a` INT\n"), S (") ENGINE=InnoDB;\n")]⟩

/-- C6 is false on the code in two ways.  First, the comma-fix pass rewrites
the line before the closing `)` even when nothing was deferred, so a
trailing space there makes the patched DDL differ from the original.
Second, when no backticked table name can be extracted, `split_indexes`
raises instead of returning empty bytes, although the DDL has zero
KEY/CONSTRAINT clauses. -/
theorem c6_counterexample :
    (extract_indexes c6aDDL = [] ∧ extract_constraints c6aDDL = [] ∧
      containsSub c6aDDL (S ("ENGINE=InnoDB")) = true ∧
      format_create_table c6aDDL [] ≠ c6aDDL) ∧
    (extract_indexes (extract_create_table c6bSec.lines) = [] ∧
      extract_constraints (extract_create_table c6bSec.lines) = [] ∧
      containsSub (extract_create_table c6bSec.lines) (S ("ENGINE=InnoDB")) = true ∧
      (split_indexes c6bSec false).result = Except.error PyErr.tableNameValueError) := by
  exact ⟨⟨rfl, rfl, rfl, by decide⟩, ⟨rfl, rfl, rfl, rfl⟩⟩

/-- C6 (amended): for every InnoDB section whose DDL has zero KEY and zero
CONSTRAINT clause lines and from which a table name can be extracted,
`split_indexes` returns empty bytes; and the patched CREATE TABLE is
byte-identical to the original DDL provided additionally that no line
immediately preceding a `)`-starting line carries trailing whitespace or
commas (the comma-fix pass is the only way they can differ). -/
theorem c6_amended_thm (sec : DumpSection) (d : Bool) (nm : LC)
    (hInno : containsSub (extract_create_table sec.lines) (S ("ENGINE=InnoDB")) = true)
    (hidx : extract_indexes (extract_create_table sec.lines) = [])
    (hcons : extract_constraints (extract_create_table sec.lines) = [])
    (hnm : extract_table_name (extract_create_table sec.lines) = some nm) :
    (split_indexes sec d).result = Except.ok [] ∧
    (List.Chain' (fun a b => startsWithPar b = true → fixL a = a)
        (splitKeep (extract_create_table sec.lines)) →
      format_create_table (extract_create_table sec.lines) [] =
        extract_create_table sec.lines) := by
  have halt : format_alter_table (extract_create_table sec.lines) [] = some [] := by
    rw [format_alter_table, hnm]
    simp
  constructor
  · cases d with
    | true =>
      simp only [split_indexes, hInno, if_true, hidx, hcons]
      rw [show ([] : List Entry) ++ [] = [] from rfl]
      simp only [splitFinish, halt]
    | false =>
      simp only [split_indexes, hInno, if_true, Bool.false_eq_true, if_false, hidx, hcons]
      rw [show buildPreserved [] [] = [] from rfl,
        show removeLoop [] [] = ([], Except.ok ([] : List Entry)) from rfl]
      simp only [splitFinish, halt]
  · intro hchain
    rw [format_create_table]
    rw [show (([] : List Entry).map (fun e => e.line)) = [] from rfl]
    rw [fctLines_eq_fixPass [] _ (by simp)]
    rw [show (fun l : LC => !List.elem l ([] : List LC)) = (fun _ => true) from rfl]
    rw [List.filter_true, fixPass_id _ hchain, joinL_splitKeep]

def c6wSec : DumpSection :=
  ⟨S ("d"), S ("t"), [S ("CREATE TABLE `t` (\n"), S ("  `a` INT\n"), S (") ENGINE=InnoDB;\n")]⟩

/-- Witness for C6 (amended) at a clean clause-free InnoDB section. -/
theorem c6_witness :
    (split_indexes c6wSec false).result = Except.ok [] ∧
    format_create_table (extract_create_table c6wSec.lines) [] =
      extract_create_table c6wSec.lines := by
  have h := c6_amended_thm c6wSec false (S ("t")) rfl rfl rfl rfl
  refine ⟨h.1, h.2 ?_⟩
  have hsk : splitKeep (extract_create_table c6wSec.lines) =
      [S ("CREATE TABLE `t` (\n"), S ("  `a` INT\n"), S (") ENGINE=InnoDB;\n")] := by decide
  rw [hsk]
  refine List.chain'_cons.mpr ⟨?_, List.chain'_cons.mpr ⟨?_, ?_⟩⟩
  · intro hp
    exact absurd hp (by decide)
  · intro hp
    decide
  · exact List.chain'_singleton _

/-! ### Claim C8: wholesale deferral with `defer_constraints = true` -/

/-- C8: with `defer_constraints = true`, no preservation warnings are
emitted, the returned ALTER TABLE's ADD clauses are exactly the stripped
lines of all extracted indexes and constraints in order (last clause
comma-adjusted), and none of those lines survives into the patched CREATE
TABLE.  The `hsafe` hypothesis rules out the pathological case of a kept
line that the comma-fix pass rewrites into a byte-identical copy of a
deferred line. -/
theorem c8_thm (sec : DumpSection) (nm : LC)
    (hInno : containsSub (extract_create_table sec.lines) (S ("ENGINE=InnoDB")) = true)
    (hnm : extract_table_name (extract_create_table sec.lines) = some nm)
    (hsafe : ∀ l ∈ splitKeep (extract_create_table sec.lines),
      fixL l ∈ ((extract_indexes (extract_create_table sec.lines) ++
          extract_constraints (extract_create_table sec.lines)).map (fun e => e.line)) →
        l ∈ ((extract_indexes (extract_create_table sec.lines) ++
          extract_constraints (extract_create_table sec.lines)).map (fun e => e.line))) :
    (split_indexes sec true).warnings = [] ∧
    (∃ alt, (split_indexes sec true).result = Except.ok alt ∧
      addClauseTexts alt =
        adjLast ((extract_indexes (extract_create_table sec.lines) ++
          extract_constraints (extract_create_table sec.lines)).map (fun e => pyStrip e.line))) ∧
    (∀ e ∈ extract_indexes (extract_create_table sec.lines) ++
        extract_constraints (extract_create_table sec.lines),
      e.line ∉ fctLines ((extract_indexes (extract_create_table sec.lines) ++
          extract_constraints (extract_create_table sec.lines)).map (fun e => e.line))
        (splitKeep (extract_create_table sec.lines))) := by
  have hlines : ∀ e ∈ extract_indexes (extract_create_table sec.lines) ++
      extract_constraints (extract_create_table sec.lines),
      ∀ d ∈ pyStrip e.line, d ≠ '\n' ∧ d ≠ '\r' := by
    intro e he
    rcases List.mem_append.mp he with h | h
    · exact pyStrip_clean_of_mem_splitKeep _ e.line (extract_line_mem e h)
    · exact pyStrip_clean_of_mem_splitKeep _ e.line (extract_line_mem e h)
  obtain ⟨alt, halt, hclauses⟩ := alter_structure (extract_create_table sec.lines) nm
    (extract_indexes (extract_create_table sec.lines) ++
      extract_constraints (extract_create_table sec.lines)) hnm hlines
  have hpar2 : ∀ l ∈ (extract_indexes (extract_create_table sec.lines) ++
      extract_constraints (extract_create_table sec.lines)).map (fun e => e.line),
      startsWithPar l = false := by
    intro l hl
    obtain ⟨e2, he2, rfl⟩ := List.mem_map.mp hl
    cases hp : startsWithPar e2.line with
    | false => rfl
    | true =>
      exfalso
      rcases List.mem_append.mp he2 with h | h
      · have hmem : e2.line ∈ (extract_indexes (extract_create_table sec.lines)).map
            (fun e => e.line) := List.mem_map.mpr ⟨e2, h, rfl⟩
        have := (mem_extract_indexes_line _ _).mp hmem
        rw [isKeyLine_par _ hp] at this
        cases this.2
      · have hmem : e2.line ∈ (extract_constraints (extract_create_table sec.lines)).map
            (fun e => e.line) := List.mem_map.mpr ⟨e2, h, rfl⟩
        have := (mem_extract_constraints_line _ _).mp hmem
        rw [isConsLine_par _ hp] at this
        cases this.2
  refine ⟨?_, ⟨alt, ?_, hclauses⟩, ?_⟩
  · simp only [split_indexes, hInno, if_true, splitFinish, halt]
  · simp only [split_indexes, hInno, if_true, splitFinish, halt]
  · intro e he hmem_out
    rw [fctLines_eq_fixPass _ _ hpar2] at hmem_out
    obtain ⟨k, hk, hor⟩ := mem_fixPass _ _ hmem_out
    have hkf := List.mem_filter.mp hk
    have hknot : k ∉ (extract_indexes (extract_create_table sec.lines) ++
        extract_constraints (extract_create_table sec.lines)).map (fun e => e.line) := by
      intro hkin
      have := List.elem_iff.mpr hkin
      rw [this] at hkf
      cases hkf.2
    have hedefer : e.line ∈ (extract_indexes (extract_create_table sec.lines) ++
        extract_constraints (extract_create_table sec.lines)).map (fun e => e.line) :=
      List.mem_map.mpr ⟨e, he, rfl⟩
    rcases hor with heq | heq
    · rw [heq] at hedefer
      exact hknot hedefer
    · rw [heq] at hedefer
      exact hknot (hsafe k hkf.1 hedefer)

def c8wSec : DumpSection :=
  ⟨S ("d"), S ("t"),
    [S ("CREATE TABLE `t` (\n"), S ("  `a` INT,\n"), S ("  KEY `k` (`a`),\n"),
     S ("  CONSTRAINT `c` FOREIGN KEY (`b`) REFERENCES `u` (`b`)\n"),
     S (") ENGINE=InnoDB;\n")]⟩

/-- Witness for C8 at an InnoDB section with one index and one constraint. -/
theorem c8_witness :
    (split_indexes c8wSec true).warnings = [] ∧
    (∃ alt, (split_indexes c8wSec true).result = Except.ok alt ∧
      addClauseTexts alt =
        adjLast ((extract_indexes (extract_create_table c8wSec.lines) ++
          extract_constraints (extract_create_table c8wSec.lines)).map (fun e => pyStrip e.line))) := by
  have h := c8_thm c8wSec (S ("t")) rfl rfl (by decide)
  exact ⟨h.1, h.2.1⟩

theorem removeFirst_subset (x : Entry) : ∀ (ys r : List Entry),
    removeFirst x ys = some r → ∀ a ∈ r, a ∈ ys := by
  intro ys
  induction ys with
  | nil =>
    intro r h
    rw [removeFirst] at h
    cases h
  | cons y ys ih =>
    intro r h a ha
    rw [removeFirst] at h
    by_cases hy : y = x
    · rw [if_pos hy] at h
      cases h
      exact List.mem_cons_of_mem _ ha
    · rw [if_neg hy] at h
      cases hro : removeFirst x ys with
      | none =>
        rw [hro] at h
        cases h
      | some r2 =>
        rw [hro, Option.map_some'] at h
        cases h
        rcases List.mem_cons.mp ha with rfl | ha2
        · exact List.mem_cons_self _ _
        · exact List.mem_cons_of_mem _ (ih r2 hro a ha2)

theorem removeLoop_subset : ∀ (pres : List (Entry × LC)) (idxs idxs2 : List Entry),
    (removeLoop idxs pres).2 = Except.ok idxs2 → ∀ a ∈ idxs2, a ∈ idxs := by
  intro pres
  induction pres with
  | nil =>
    intro idxs idxs2 h a ha
    rw [removeLoop] at h
    injection h with h3
    subst h3
    exact ha
  | cons p rest ih =>
    intro idxs idxs2 h a ha
    obtain ⟨e, cn⟩ := p
    rw [removeLoop] at h
    cases hro : removeFirst e idxs with
    | none =>
      rw [hro] at h
      cases h
    | some idxs3 =>
      rw [hro] at h
      dsimp only at h
      exact removeFirst_subset e idxs idxs3 hro a (ih idxs3 idxs2 h a ha)

theorem forall2_mem_right {α β : Type} {R : α → β → Prop} :
    ∀ {l₁ : List α} {l₂ : List β}, List.Forall₂ R l₁ l₂ →
      ∀ b ∈ l₂, ∃ a ∈ l₁, R a b := by
  intro l₁ l₂ h
  induction h with
  | nil =>
    intro b hb
    cases hb
  | cons hr hrest ih =>
    intro b hb
    rcases List.mem_cons.mp hb with rfl | hb2
    · exact ⟨_, List.mem_cons_self _ _, hr⟩
    · obtain ⟨a, ha, hra⟩ := ih b hb2
      exact ⟨a, List.mem_cons_of_mem _ ha, hra⟩

/-- C1 (amended): with `defer_constraints = false` a constraint is never
deferred, whether or not an index prefix-matches it.  Universally, whenever
the preservation/removal pass succeeds, the deferred list consists solely of
extracted indexes; the returned ALTER TABLE's ADD clauses are exactly the
whitespace-stripped lines of those deferred indexes (final clause
comma-adjusted), so no clause derives from a constraint; and every extracted
constraint whose line is not byte-identical to an extracted index line keeps
a line in the patched CREATE TABLE, either verbatim or rewritten by the
comma-fix pass.  In the spec's end-to-end example, `idx_a` is removed from
the CREATE TABLE and emitted as the single ADD clause of the ALTER TABLE,
while the `fk_b` constraint line stays in the CREATE TABLE. -/
theorem c1_amended_thm (sec : DumpSection) (nm : LC) (idxs2 : List Entry)
    (warns : List (LC × LC))
    (hInno : containsSub (extract_create_table sec.lines) (S ("ENGINE=InnoDB")) = true)
    (hnm : extract_table_name (extract_create_table sec.lines) = some nm)
    (hrl : removeLoop (extract_indexes (extract_create_table sec.lines))
        (buildPreserved (extract_constraints (extract_create_table sec.lines))
          (extract_indexes (extract_create_table sec.lines))) =
      (warns, Except.ok idxs2)) :
    (∀ e ∈ idxs2, e ∈ extract_indexes (extract_create_table sec.lines)) ∧
    (∃ alt, (split_indexes sec false).result = Except.ok alt ∧
      addClauseTexts alt = adjLast (idxs2.map (fun e => pyStrip e.line))) ∧
    (∀ c ∈ extract_constraints (extract_create_table sec.lines),
      c.line ∉ (extract_indexes (extract_create_table sec.lines)).map (fun e => e.line) →
        ∃ l ∈ fctLines (idxs2.map (fun e => e.line))
            (splitKeep (extract_create_table sec.lines)),
          l = c.line ∨ l = fixL c.line) ∧
    split_indexes exC1sec false =
      ⟨Except.ok exC1alter,
       [S ("CREATE TABLE `t` (\n"), S ("  `a` INT,\n"), S ("  `b` INT,\n"),
        S ("  CONSTRAINT `fk_b` FOREIGN KEY (`b`) REFERENCES `other` (`id`)\n"),
        S (") ENGINE=InnoDB;\n")], []⟩ := by
  have hsub : ∀ e ∈ idxs2, e ∈ extract_indexes (extract_create_table sec.lines) :=
    removeLoop_subset _ _ _ (by rw [hrl])
  have hsubl : ∀ l ∈ idxs2.map (fun e => e.line),
      l ∈ (extract_indexes (extract_create_table sec.lines)).map (fun e => e.line) := by
    intro l hl
    obtain ⟨e, he, rfl⟩ := List.mem_map.mp hl
    exact List.mem_map.mpr ⟨e, hsub e he, rfl⟩
  refine ⟨hsub, ?_, ?_, rfl⟩
  · have hlines : ∀ e ∈ idxs2, ∀ d ∈ pyStrip e.line, d ≠ '\n' ∧ d ≠ '\r' := by
      intro e he
      exact pyStrip_clean_of_mem_splitKeep _ e.line (extract_line_mem e (hsub e he))
    obtain ⟨alt, halt, hcl⟩ :=
      alter_structure (extract_create_table sec.lines) nm idxs2 hnm hlines
    refine ⟨alt, ?_, hcl⟩
    simp only [split_indexes, hInno, if_true, Bool.false_eq_true, if_false, hrl,
      splitFinish, halt]
  · intro c hc hnot
    have hpar : ∀ l ∈ idxs2.map (fun e => e.line), startsWithPar l = false := by
      intro l hl
      exact keyline_defer_par _ l (hsubl l hl)
    rw [fctLines_eq_fixPass _ _ hpar]
    have hmem : c.line ∈ splitKeep (extract_create_table sec.lines) :=
      extract_line_mem c hc
    have hff : (idxs2.map (fun e => e.line)).elem c.line = false := by
      cases h2 : (idxs2.map (fun e => e.line)).elem c.line with
      | false => rfl
      | true => exact absurd (hsubl _ (List.elem_iff.mp h2)) hnot
    have hfil : c.line ∈ (splitKeep (extract_create_table sec.lines)).filter
        (fun l => !(idxs2.map (fun e => e.line)).elem l) := by
      refine List.mem_filter.mpr ⟨hmem, ?_⟩
      rw [hff]
      rfl
    exact forall2_mem_right (fixPass_forall2 _) _ hfil

def c1wSec : DumpSection :=
  ⟨S ("d"), S ("t"),
   [S ("CREATE TABLE `t` (\n"), S ("  `a` INT,\n"), S ("  KEY `k` (`a`),\n"),
    S ("  CONSTRAINT `c` FOREIGN KEY (`a`) REFERENCES `o` (`x`)\n"),
    S (") ENGINE=InnoDB;\n")]⟩

/-- Witness for C1 (amended) at a section whose constraint IS satisfied by an
index: the matching index is preserved (not deferred), the ALTER has zero ADD
clauses, and the constraint line survives into the patched CREATE TABLE. -/
theorem c1_witness :
    (∃ alt, (split_indexes c1wSec false).result = Except.ok alt ∧
      addClauseTexts alt = adjLast (([] : List Entry).map (fun e => pyStrip e.line))) ∧
    (∃ l ∈ fctLines (([] : List Entry).map (fun e => e.line))
        (splitKeep (extract_create_table c1wSec.lines)),
      l = S ("  CONSTRAINT `c` FOREIGN KEY (`a`) REFERENCES `o` (`x`)\n") ∨
      l = fixL (S ("  CONSTRAINT `c` FOREIGN KEY (`a`) REFERENCES `o` (`x`)\n"))) := by
  have h := c1_amended_thm c1wSec (S ("t")) [] [(S ("k"), S ("c"))] rfl rfl rfl
  refine ⟨h.2.1, ?_⟩
  obtain ⟨c, hc, hcl⟩ : ∃ c ∈ extract_constraints (extract_create_table c1wSec.lines),
      c.line = S ("  CONSTRAINT `c` FOREIGN KEY (`a`) REFERENCES `o` (`x`)\n") := by
    decide
  have h2 := h.2.2.1 c hc (by rw [hcl]; decide)
  rw [hcl] at h2
  exact h2
